import Mathlib

/-!
Verification of the pacmoon maze-chase simulation core.

This development shallowly embeds the TypeScript simulation core:
  * `types.ts` (directions, tiles, modes, phases),
  * `world/map-grid.ts` (the `MapGrid` class),
  * `world/pathfinding.ts` (`bfsNextDir`, `pickBestLocalDir`, `stepTile`),
  * `entities/entity.ts` and `entities/ghost.ts` (the `Ghost` class),
  * `entities/ghost-ai.ts` (targeting and direction choice),
  * `engine/game-engine.ts` (the per-tick `update` pipeline).

Modelling conventions:
  * JS `number` values used as continuous quantities (pixel positions,
    millisecond timers, speeds) are modelled as `Rat`, i.e. exact real
    arithmetic; JS numbers used as tile indices, scores, lives and counters
    are modelled as `Int`.
  * `Math.sqrt(x) < c` (with `c ≥ 0`, `x ≥ 0`) is modelled as `x < c ^ 2`,
    which is equivalent over the reals.
  * `Math.random()` is modelled by an explicit stream of rational values
    carried in the engine state (`rng`, `rngIdx`); the stream is advanced
    exactly when the source calls `Math.random()` (frightened targeting).
  * JS `Set`/`Map` keyed by the injective string key `"col,row"` are
    modelled as lists keyed by the `TilePos` itself.
  * The unbounded `while` loops of `bfsNextDir` (BFS queue loop and the
    parent-chain trace-back) are given explicit fuel; the fuel is proved
    sufficient, so the fuelled function computes the same result as the
    source's unbounded loop.
  * Rendering, `console.log`, HUD-callback emission (`emitHud`) and other
    I/O have no effect on simulation state and are omitted.
-/

namespace Pacmoon

/-! ## types.ts -/

/-- `Dir` from types.ts: `'up' | 'down' | 'left' | 'right' | 'none'`. -/
inductive Dir where
  | up | down | left | right | none
deriving DecidableEq, Repr

/-- `Tile` from types.ts. -/
inductive Tile where
  | wall | empty | pellet | power | door | tunnel
deriving DecidableEq, Repr

/-- `GhostMode` from types.ts. -/
inductive GhostMode where
  | scatter | chase | frightened | eaten
deriving DecidableEq, Repr

/-- `GamePhase` from types.ts. -/
inductive GamePhase where
  | start | playing | paused | life_lost | level_clear | game_over
deriving DecidableEq, Repr

/-- `GhostName` from types.ts. -/
inductive GhostName where
  | ra | bastet | thoth | anubis
deriving DecidableEq, Repr

/-- The `'scatter' | 'chase'` union used for the engine's global mode. -/
inductive GlobalMode where
  | scatter | chase
deriving DecidableEq, Repr

/-- Assigning a global mode to a ghost's `mode` field. -/
def GlobalMode.toGhostMode : GlobalMode → GhostMode
  | .scatter => .scatter
  | .chase => .chase

/-- `TilePos` from types.ts: discrete (column, row). -/
structure TilePos where
  col : Int
  row : Int
deriving DecidableEq, Repr

/-- `Vec2` from types.ts: continuous 2D coordinate. -/
structure Vec2 where
  x : Rat
  y : Rat
deriving DecidableEq, Repr

/-- `DIR_V` from types.ts, as integer unit vectors `(x, y)`. -/
def DIR_V : Dir → Int × Int
  | .up => (0, -1)
  | .down => (0, 1)
  | .left => (-1, 0)
  | .right => (1, 0)
  | .none => (0, 0)

/-- `DIR_ORDER` from types.ts: the fixed BFS expansion order. -/
def DIR_ORDER : List Dir := [.up, .left, .down, .right]

/-! ## engine/config.ts (the constants the claims touch) -/

def COLS : Int := 40
def ROWS : Int := 25
def BASE_TILE : Rat := 16
def FRAME_MS : Rat := 1000 / 60
def PACMOON_SPEED : Rat := 80
def GHOST_SPEED : Rat := 75
def GHOST_FRIGHTENED_SPEED : Rat := 40
def GHOST_EATEN_SPEED : Rat := 160
def GHOST_TUNNEL_SPEED : Rat := 40
def COLLISION_DIST_PX : Rat := 6
def CENTER_EPS_PX : Rat := 1 / 2
def PELLET_SCORE : Int := 10
def POWER_PELLET_SCORE : Int := 50
def GHOST_BASE_SCORE : Int := 200
def INITIAL_LIVES : Int := 3

/-! ## world/level-data.ts

The level-data module itself (maze literals) is outside the verified core;
only its `LevelData` shape is consumed.  A maze row (a JS string) is
modelled as a `List Char`; the record maps are modelled as functions. -/

structure LevelData where
  maze : List (List Char)
  pacmoonSpawn : TilePos
  ghostSpawns : GhostName → TilePos
  scatterTargets : GhostName → TilePos

/-! ## world/map-grid.ts -/

/-- `charToTile` from map-grid.ts. -/
def charToTile (c : Char) : Tile :=
  if c = '#' then .wall
  else if c = '.' then .pellet
  else if c = 'o' then .power
  else if c = '-' then .door
  else if c = 'T' then .tunnel
  else .empty

/-- The `MapGrid` class state: `cols`/`rows` fields (set to `COLS`/`ROWS`
by the constructor), the tile matrix and the live collectible counter. -/
structure MapGrid where
  cols : Int
  rows : Int
  tiles : List (List Tile)
  pelletsRemaining : Int
deriving DecidableEq, Repr

/-- The `MapGrid` constructor: builds the `ROWS × COLS` tile matrix from
the maze rows (missing row → `''`, missing char → `' '`), counting
pellet/power tiles into `pelletsRemaining` as it goes. -/
def mkMapGrid (levelData : LevelData) : MapGrid :=
  let res := (List.range ROWS.toNat).foldl
    (fun (acc : List (List Tile) × Int) (row : Nat) =>
      let mazeRow := levelData.maze.getD row []
      let rowRes := (List.range COLS.toNat).foldl
        (fun (racc : List Tile × Int) (col : Nat) =>
          let char := mazeRow.getD col ' '
          let tile := charToTile char
          (racc.1 ++ [tile],
           if tile = .pellet ∨ tile = .power then racc.2 + 1 else racc.2))
        ([], acc.2)
      (acc.1 ++ [rowRes.1], rowRes.2))
    ([], 0)
  { cols := COLS, rows := ROWS, tiles := res.1, pelletsRemaining := res.2 }

/-- `MapGrid.getTile`: any out-of-bounds row or column gives `wall`.
In-bounds lookup indexes the matrix; the `getD` defaults are `wall` so a
successful non-wall lookup witnesses that the entry really exists. -/
def MapGrid.getTile (g : MapGrid) (pos : TilePos) : Tile :=
  if pos.row < 0 ∨ pos.row ≥ g.rows then .wall
  else if pos.col < 0 ∨ pos.col ≥ g.cols then .wall
  else (g.tiles.getD pos.row.toNat []).getD pos.col.toNat .wall

/-- `MapGrid.getTileWrapped`: rows are hard bounds, columns wrap. -/
def MapGrid.getTileWrapped (g : MapGrid) (pos : TilePos) : Tile :=
  if pos.row < 0 ∨ pos.row ≥ g.rows then .wall
  else
    let col := if pos.col < 0 then g.cols - 1 else pos.col
    let col := if col ≥ g.cols then 0 else col
    (g.tiles.getD pos.row.toNat []).getD col.toNat .wall

/-- `MapGrid.setTile`: out-of-bounds writes are ignored. -/
def MapGrid.setTile (g : MapGrid) (pos : TilePos) (tile : Tile) : MapGrid :=
  if pos.row < 0 ∨ pos.row ≥ g.rows then g
  else if pos.col < 0 ∨ pos.col ≥ g.cols then g
  else
    let newRow := (g.tiles.getD pos.row.toNat []).set pos.col.toNat tile
    { g with tiles := g.tiles.set pos.row.toNat newRow }

/-- `MapGrid.consumePellet`: returns the consumed kind (or `none`) together
with the updated grid (the source mutates `this`). -/
def MapGrid.consumePellet (g : MapGrid) (pos : TilePos) :
    Option Tile × MapGrid :=
  let tile := g.getTile pos
  if tile = .pellet ∨ tile = .power then
    (some tile,
     { (g.setTile pos .empty) with pelletsRemaining := g.pelletsRemaining - 1 })
  else (Option.none, g)

/-- `MapGrid.getPelletsRemaining`. -/
def MapGrid.getPelletsRemaining (g : MapGrid) : Int := g.pelletsRemaining

/-- `MapGrid.isWalkable` (player walkability). -/
def MapGrid.isWalkable (g : MapGrid) (pos : TilePos) : Bool :=
  let tile := g.getTileWrapped pos
  tile ≠ .wall ∧ tile ≠ .door

/-- `MapGrid.isWalkableForGhost`. -/
def MapGrid.isWalkableForGhost (g : MapGrid) (pos : TilePos)
    (canUseDoor : Bool) : Bool :=
  let tile := g.getTileWrapped pos
  if tile = .wall then false
  else if tile = .door then canUseDoor
  else true

/-- `MapGrid.posToTile`: floor-division of a continuous position. -/
def MapGrid.posToTile (_g : MapGrid) (pos : Vec2) : TilePos :=
  { col := (pos.x / BASE_TILE).floor, row := (pos.y / BASE_TILE).floor }

/-- `MapGrid.tileToPos`: the centre of a tile. -/
def MapGrid.tileToPos (_g : MapGrid) (tile : TilePos) : Vec2 :=
  { x := ((tile.col : Rat) + 1 / 2) * BASE_TILE,
    y := ((tile.row : Rat) + 1 / 2) * BASE_TILE }

/-- `MapGrid.getTileCenter` (same formula as `tileToPos`). -/
def MapGrid.getTileCenter (_g : MapGrid) (pos : TilePos) : Vec2 :=
  { x := ((pos.col : Rat) + 1 / 2) * BASE_TILE,
    y := ((pos.row : Rat) + 1 / 2) * BASE_TILE }

/-! ## world/pathfinding.ts -/

/-- `opposite` from pathfinding.ts. -/
def opposite (dir : Dir) : Dir :=
  match dir with
  | .up => .down
  | .down => .up
  | .left => .right
  | .right => .left
  | .none => .none

/-- `stepTile` from pathfinding.ts: rows are hard bounds (no move), columns
wrap around. -/
def stepTile (grid : MapGrid) (f : TilePos) (dir : Dir) : TilePos :=
  let v := DIR_V dir
  let col := f.col + v.1
  let row := f.row + v.2
  if row < 0 ∨ row ≥ grid.rows then f
  else
    let col := if col < 0 then grid.cols - 1 else col
    let col := if col ≥ grid.cols then 0 else col
    { col := col, row := row }

/-- `pickBestLocalDir` from pathfinding.ts: first direction in `DIR_ORDER`
that is not the reverse and leads to a distinct walkable tile; otherwise
the reverse direction if its step lands on a walkable tile; else `none`. -/
def pickBestLocalDir (grid : MapGrid) (f : TilePos) (reverseDir : Dir)
    (canUseDoor : Bool) : Dir :=
  match DIR_ORDER.find? (fun dir =>
      dir ≠ reverseDir ∧
      stepTile grid f dir ≠ f ∧
      grid.isWalkableForGhost (stepTile grid f dir) canUseDoor) with
  | some dir => dir
  | Option.none =>
    if reverseDir ≠ .none ∧
        grid.isWalkableForGhost (stepTile grid f reverseDir) canUseDoor
    then reverseDir
    else .none

/-- A BFS parent-map entry: (key, prev, via), as stored by
`parent.set(k, { prev: cur, via: dir })`. -/
abbrev ParentEntry := TilePos × TilePos × Dir

/-- `parent.get(k)` on the association list (latest insertion first; keys
are inserted at most once, so `find?` retrieves the unique entry). -/
def lookupParent (parent : List ParentEntry) (k : TilePos) :
    Option (TilePos × Dir) :=
  match parent.find? (fun e => e.1 = k) with
  | some e => some e.2
  | Option.none => Option.none

/-- The trace-back `while` loop of `bfsNextDir`: follow `prev` pointers
from the tile that reached the target back to the origin, returning the
`via` of the entry whose `prev` is the origin.  `fuel` bounds the loop;
`Option.none` means fuel ran out or a parent entry was missing (proved
unreachable for the fuel the caller supplies). -/
def traceBack (parent : List ParentEntry) (origin : TilePos) :
    Nat → TilePos → Option Dir
  | 0, _ => Option.none
  | fuel + 1, key =>
    match lookupParent parent key with
    | Option.none => Option.none
    | some (prev, via) =>
      if prev = origin then some via else traceBack parent origin fuel prev

/-- The BFS working state: the queue and visited set (`Set<string>` keyed
by `"col,row"`, modelled by the tile itself) and the parent map. -/
structure BfsState where
  queue : List TilePos
  visited : List TilePos
  parent : List ParentEntry
deriving Repr

/-- The inner `for (const dir of DIR_ORDER)` loop body of `bfsNextDir`,
processing the remaining directions of the current node `cur`.
`Except.error r` models the early `return` when the target is claimed
(`r` is the traced first step); `Except.ok` carries the updated state. -/
def expandDirs (grid : MapGrid) (canUseDoor : Bool) (origin tgt : TilePos)
    (reverseDir : Dir) (cur : TilePos) :
    List Dir → BfsState → Except (Option Dir) BfsState
  | [], st => .ok st
  | dir :: rest, st =>
    if cur = origin ∧ dir = reverseDir then
      expandDirs grid canUseDoor origin tgt reverseDir cur rest st
    else
      let nxt := stepTile grid cur dir
      if nxt = cur then
        expandDirs grid canUseDoor origin tgt reverseDir cur rest st
      else if ¬ grid.isWalkableForGhost nxt canUseDoor then
        expandDirs grid canUseDoor origin tgt reverseDir cur rest st
      else if st.visited.contains nxt then
        expandDirs grid canUseDoor origin tgt reverseDir cur rest st
      else
        let visited' := nxt :: st.visited
        let parent' := (nxt, cur, dir) :: st.parent
        if nxt = tgt then
          .error (traceBack parent' origin parent'.length nxt)
        else
          expandDirs grid canUseDoor origin tgt reverseDir cur rest
            { queue := st.queue ++ [nxt], visited := visited',
              parent := parent' }

/-- The outer `while (queue.length > 0)` loop of `bfsNextDir`. `fuel`
bounds the number of iterations; `Option.none` means fuel ran out
(proved unreachable for the initial fuel chosen below). -/
def bfsLoop (grid : MapGrid) (canUseDoor : Bool) (origin tgt : TilePos)
    (reverseDir : Dir) : Nat → BfsState → Option Dir
  | 0, _ => Option.none
  | fuel + 1, st =>
    match st.queue with
    | [] => some (pickBestLocalDir grid origin reverseDir canUseDoor)
    | cur :: rest =>
      match expandDirs grid canUseDoor origin tgt reverseDir cur DIR_ORDER
          { st with queue := rest } with
      | .error r => r
      | .ok st' => bfsLoop grid canUseDoor origin tgt reverseDir fuel st'

/-- Fuel for the BFS loop: each iteration either claims at least one new
tile (of which there are at most `cols × rows`) or shortens the queue, so
this bound is sufficient (proved below). -/
def bfsFuel (grid : MapGrid) : Nat :=
  5 * (grid.cols.toNat * grid.rows.toNat + 1) + 2

/-- `bfsNextDir`, with the two unbounded loops fuelled; `Option.none`
means a fuel bound was hit (proved unreachable on grids with positive
dimensions). -/
def bfsNextDirCore (grid : MapGrid) (f tgt : TilePos) (currentDir : Dir)
    (canUseDoor : Bool) : Option Dir :=
  let reverseDir := opposite currentDir
  if f.col = tgt.col ∧ f.row = tgt.row then
    some (pickBestLocalDir grid f reverseDir canUseDoor)
  else
    bfsLoop grid canUseDoor f tgt reverseDir (bfsFuel grid)
      { queue := [f], visited := [f], parent := [] }

/-- `bfsNextDir` from pathfinding.ts. -/
def bfsNextDir (grid : MapGrid) (f tgt : TilePos) (currentDir : Dir)
    (canUseDoor : Bool) : Dir :=
  (bfsNextDirCore grid f tgt currentDir canUseDoor).getD .none

/-- `getDistanceSquared` from pathfinding.ts. -/
def getDistanceSquared (a b : TilePos) : Int :=
  let dx := a.col - b.col
  let dy := a.row - b.row
  dx * dx + dy * dy

/-! ## entities/entity.ts and entities/ghost.ts

The `Ghost` class (extending `Entity`) flattened into one structure. -/

structure Ghost where
  name : GhostName
  pos : Vec2
  dir : Dir
  speed : Rat
  mode : GhostMode
  targetTile : TilePos
  scatterTarget : TilePos
  spawnPos : Vec2
  frightenedTimeRemaining : Rat
deriving DecidableEq, Repr

/-- The `Ghost` constructor (via `Entity`): initial mode `scatter`,
countdown 0, direction `left` for ra and `up` for the others. -/
def mkGhost (name : GhostName) (pos : Vec2) (scatterTarget : TilePos) :
    Ghost :=
  { name := name, pos := pos,
    dir := if name = .ra then .left else .up,
    speed := GHOST_SPEED, mode := .scatter,
    targetTile := { col := 0, row := 0 },
    scatterTarget := scatterTarget, spawnPos := pos,
    frightenedTimeRemaining := 0 }

/-- `Entity.getTilePos`. -/
def Ghost.getTilePos (g : Ghost) : TilePos :=
  { col := (g.pos.x / BASE_TILE).floor, row := (g.pos.y / BASE_TILE).floor }

/-- `Entity.getTileCenter`. -/
def Ghost.getTileCenter (g : Ghost) : Vec2 :=
  let tile := g.getTilePos
  { x := ((tile.col : Rat) + 1 / 2) * BASE_TILE,
    y := ((tile.row : Rat) + 1 / 2) * BASE_TILE }

/-- `Entity.wrapPosition` (horizontal wrap over `[0, WORLD_W)`;
`WORLD_W = COLS * BASE_TILE = 640`). -/
def Ghost.wrapPosition (g : Ghost) : Ghost :=
  let worldW : Rat := (COLS : Rat) * BASE_TILE
  if g.pos.x < 0 then { g with pos := { g.pos with x := g.pos.x + worldW } }
  else if g.pos.x ≥ worldW then
    { g with pos := { g.pos with x := g.pos.x - worldW } }
  else g

/-- `Ghost.getSpeed`. -/
def Ghost.getSpeed (g : Ghost) (isInTunnel : Bool) : Rat :=
  if g.mode = .eaten then GHOST_EATEN_SPEED
  else if g.mode = .frightened then GHOST_FRIGHTENED_SPEED
  else if isInTunnel then GHOST_TUNNEL_SPEED
  else GHOST_SPEED

/-- `Ghost.reverseDirection` (a `none` direction is left unchanged). -/
def Ghost.reverseDirection (g : Ghost) : Ghost :=
  match g.dir with
  | .up => { g with dir := .down }
  | .down => { g with dir := .up }
  | .left => { g with dir := .right }
  | .right => { g with dir := .left }
  | .none => g

/-- `Ghost.setFrightened`: no effect on an eaten ghost; otherwise enter
frightened mode, start the countdown and reverse direction. -/
def Ghost.setFrightened (g : Ghost) (durationMs : Rat) : Ghost :=
  if g.mode = .eaten then g
  else
    ({ g with mode := .frightened,
              frightenedTimeRemaining := durationMs }).reverseDirection

/-- `Ghost.updateFrightened`: tick the countdown; when it reaches 0 resume
whatever the current global mode is. -/
def Ghost.updateFrightened (g : Ghost) (dtMs : Rat)
    (globalMode : GlobalMode) : Ghost :=
  if g.mode ≠ .frightened then g
  else
    let t := g.frightenedTimeRemaining - dtMs
    if t ≤ 0 then
      { g with mode := globalMode.toGhostMode, frightenedTimeRemaining := 0 }
    else { g with frightenedTimeRemaining := t }

/-- `Ghost.setEaten`. -/
def Ghost.setEaten (g : Ghost) : Ghost :=
  { g with mode := .eaten, frightenedTimeRemaining := 0 }

/-- `Ghost.respawn`: sets the mode (only) back to `scatter`. -/
def Ghost.respawn (g : Ghost) : Ghost :=
  { g with mode := .scatter }

/-- `Ghost.isAtTileCenter`. -/
def Ghost.isAtTileCenter (g : Ghost) : Bool :=
  let center := g.getTileCenter
  |g.pos.x - center.x| ≤ CENTER_EPS_PX ∧ |g.pos.y - center.y| ≤ CENTER_EPS_PX

/-- `Ghost.canUseDoor`. -/
def Ghost.canUseDoor (g : Ghost) : Bool := g.mode = .eaten

/-! ## entities/ghost-ai.ts -/

/-- `GHOST_HOUSE_TARGET` from ghost-ai.ts. -/
def GHOST_HOUSE_TARGET : TilePos := { col := 13, row := 14 }

/-- `clampTarget` from ghost-ai.ts. -/
def clampTarget (target : TilePos) (grid : MapGrid) : TilePos :=
  { col := max 0 (min (grid.cols - 1) target.col),
    row := max 0 (min (grid.rows - 1) target.row) }

/-- `getTileAhead` from ghost-ai.ts. -/
def getTileAhead (tile : TilePos) (dir : Dir) (distance : Int) : TilePos :=
  let v := DIR_V dir
  { col := tile.col + v.1 * distance, row := tile.row + v.2 * distance }

/-- `getThothTarget` from ghost-ai.ts. -/
def getThothTarget (pacmoonTile : TilePos) (pacmoonDir : Dir)
    (raPos : Vec2) : TilePos :=
  let twoAhead := getTileAhead pacmoonTile pacmoonDir 2
  let raTile : TilePos :=
    { col := (raPos.x / BASE_TILE).floor, row := (raPos.y / BASE_TILE).floor }
  { col := twoAhead.col + (twoAhead.col - raTile.col),
    row := twoAhead.row + (twoAhead.row - raTile.row) }

/-- `getAnubisTarget` from ghost-ai.ts. -/
def getAnubisTarget (ghost : Ghost) (pacmoonTile : TilePos) : TilePos :=
  let ghostTile := ghost.getTilePos
  let dx := ghostTile.col - pacmoonTile.col
  let dy := ghostTile.row - pacmoonTile.row
  let distSq := dx * dx + dy * dy
  if distSq > 64 then pacmoonTile else ghost.scatterTarget

/-- `getRandomTarget` from ghost-ai.ts; `randVal` is the `Math.random()`
draw (a value in `[0, 1)`). -/
def getRandomTarget (ghost : Ghost) (grid : MapGrid) (randVal : Rat) :
    TilePos :=
  let current := ghost.getTilePos
  let offset := (randVal * 10).floor - 5
  { col := max 0 (min (grid.cols - 1) (current.col + offset)),
    row := max 0 (min (grid.rows - 1) (current.row + offset)) }

/-- `updateGhostTarget` from ghost-ai.ts; `randVal` is the `Math.random()`
draw consumed only in the frightened branch. -/
def updateGhostTarget (ghost : Ghost) (pacmoonPos : Vec2)
    (pacmoonDir : Dir) (raPos : Vec2) (grid : MapGrid) (randVal : Rat) :
    Ghost :=
  if ghost.mode = .eaten then { ghost with targetTile := GHOST_HOUSE_TARGET }
  else if ghost.mode = .frightened then
    { ghost with targetTile := getRandomTarget ghost grid randVal }
  else if ghost.mode = .scatter then
    { ghost with targetTile := ghost.scatterTarget }
  else
    let pacmoonTile : TilePos :=
      { col := (pacmoonPos.x / BASE_TILE).floor,
        row := (pacmoonPos.y / BASE_TILE).floor }
    match ghost.name with
    | .ra => { ghost with targetTile := pacmoonTile }
    | .bastet =>
      { ghost with targetTile :=
          clampTarget (getTileAhead pacmoonTile pacmoonDir 4) grid }
    | .thoth =>
      { ghost with targetTile :=
          clampTarget (getThothTarget pacmoonTile pacmoonDir raPos) grid }
    | .anubis =>
      { ghost with targetTile := getAnubisTarget ghost pacmoonTile }

/-- `chooseGhostDirection` from ghost-ai.ts. -/
def chooseGhostDirection (ghost : Ghost) (grid : MapGrid) : Dir :=
  bfsNextDir grid ghost.getTilePos ghost.targetTile ghost.dir
    ghost.canUseDoor

/-! ## engine/game-engine.ts -/

/-- `GHOST_NAMES` from game-engine.ts. -/
def GHOST_NAMES : List GhostName := [.ra, .bastet, .thoth, .anubis]

/-- `getFrightenedDurationMs` from game-engine.ts. -/
def getFrightenedDurationMs (level : Int) : Rat :=
  if level = 1 then 6000
  else if level = 2 then 5000
  else if level = 3 then 4000
  else if level = 4 then 3000
  else 2000

/-- `HudState` from types.ts. -/
structure HudState where
  score : Int
  lives : Int
  level : Int
  phase : GamePhase
deriving DecidableEq, Repr

/-- The mutable simulation state of the `GameEngine` class (canvas,
viewport, animation bookkeeping and callbacks are presentation-side and
omitted).  `rng`/`rngIdx` model the stream of `Math.random()` draws. -/
structure EngineState where
  levelData : LevelData
  grid : MapGrid
  pacmoonPos : Vec2
  pacmoonDir : Dir
  desiredDir : Dir
  ghosts : List Ghost
  ghostsEatenCombo : Nat
  modeTimer : Rat
  modeIndex : Nat
  globalMode : GlobalMode
  hud : HudState
  gameTimeMs : Rat
  blinkTimer : Rat
  powerPelletBlink : Bool
  rng : Nat → Rat
  rngIdx : Nat

/-- `getModeSchedule` from game-engine.ts; the final `Infinity` entry is
modelled as `⊤` in `WithTop Rat`. -/
def getModeSchedule (level : Int) : List (WithTop Rat) :=
  if level = 1 then
    [7000, 20000, 7000, 20000, 5000, 20000, 5000, ⊤]
  else if 2 ≤ level ∧ level ≤ 4 then
    [7000, 20000, 7000, 20000, 5000, 20000, 5000, ⊤]
  else
    [5000, 20000, 5000, 20000, 5000, 20000, 5000, ⊤]

/-- `GameEngine.updateModeTimer`: advance the wave-schedule timer; on a
threshold, flip the global mode and reverse every non-frightened,
non-eaten ghost. -/
def updateModeTimer (s : EngineState) (dtMs : Rat) : EngineState :=
  let schedule := getModeSchedule s.hud.level
  if s.modeIndex ≥ schedule.length then s
  else
    let modeTimer := s.modeTimer + dtMs
    if (modeTimer : WithTop Rat) ≥ schedule.getD s.modeIndex ⊤ then
      let modeIndex := s.modeIndex + 1
      let globalMode : GlobalMode :=
        if modeIndex % 2 = 0 then .scatter else .chase
      let ghosts := s.ghosts.map (fun ghost =>
        if ghost.mode ≠ .frightened ∧ ghost.mode ≠ .eaten then
          ({ ghost with mode := globalMode.toGhostMode }).reverseDirection
        else ghost)
      { s with modeTimer := 0, modeIndex := modeIndex,
               globalMode := globalMode, ghosts := ghosts }
    else { s with modeTimer := modeTimer }

/-- `GameEngine.getNextTile`. -/
def getNextTile (pos : TilePos) (dir : Dir) : TilePos :=
  let v := DIR_V dir
  { col := pos.col + v.1, row := pos.row + v.2 }

/-- `GameEngine.isOpposite`. -/
def isOpposite (a b : Dir) : Bool :=
  (a = .up ∧ b = .down) ∨ (a = .down ∧ b = .up) ∨
  (a = .left ∧ b = .right) ∨ (a = .right ∧ b = .left)

/-- `GameEngine.canMoveTo`: probe 4px ahead along the movement direction
and require the landing tile to be player-walkable. -/
def canMoveTo (grid : MapGrid) (pos : Vec2) (dir : Dir) : Bool :=
  let v := DIR_V dir
  let probeX := pos.x + (v.1 : Rat) * 4
  let probeY := pos.y + (v.2 : Rat) * 4
  let tilePos : TilePos :=
    { col := (probeX / BASE_TILE).floor, row := (probeY / BASE_TILE).floor }
  grid.isWalkable tilePos

/-- `GameEngine.tryTurn`: returns the (possibly snapped) player position
together with the direction the turn resolves to. -/
def tryTurn (s : EngineState) (dir : Dir) : Vec2 × Dir :=
  if dir = s.pacmoonDir then (s.pacmoonPos, s.pacmoonDir)
  else
    let tilePos := s.grid.posToTile s.pacmoonPos
    let center := s.grid.getTileCenter tilePos
    if s.pacmoonDir = .none then
      if s.grid.isWalkable (getNextTile tilePos dir) then (center, dir)
      else (s.pacmoonPos, .none)
    else if isOpposite dir s.pacmoonDir then (s.pacmoonPos, dir)
    else
      let eps := CENTER_EPS_PX * 4
      if (dir = .up ∨ dir = .down) ∧ |s.pacmoonPos.x - center.x| > eps then
        (s.pacmoonPos, s.pacmoonDir)
      else if (dir = .left ∨ dir = .right) ∧
          |s.pacmoonPos.y - center.y| > eps then
        (s.pacmoonPos, s.pacmoonDir)
      else if s.grid.isWalkable (getNextTile tilePos dir) then (center, dir)
      else (s.pacmoonPos, s.pacmoonDir)

/-- `GameEngine.snapToCenter`. -/
def snapToCenter (s : EngineState) : EngineState :=
  let tilePos := s.grid.posToTile s.pacmoonPos
  { s with pacmoonPos := s.grid.getTileCenter tilePos }

/-- `GameEngine.wrapPosition` (player variant). -/
def wrapPosition (s : EngineState) : EngineState :=
  let worldW : Rat := (COLS : Rat) * BASE_TILE
  if s.pacmoonPos.x < 0 then
    { s with pacmoonPos := { s.pacmoonPos with x := s.pacmoonPos.x + worldW } }
  else if s.pacmoonPos.x ≥ worldW then
    { s with pacmoonPos := { s.pacmoonPos with x := s.pacmoonPos.x - worldW } }
  else s

/-- `GameEngine.updatePacmoon` (the `console.log` position trace is
I/O-only and omitted). -/
def updatePacmoon (s : EngineState) (dtMs : Rat) : EngineState :=
  let speed := PACMOON_SPEED * (dtMs / 1000)
  let s :=
    if s.desiredDir ≠ .none then
      let res := tryTurn s s.desiredDir
      let s := { s with pacmoonPos := res.1 }
      if res.2 ≠ s.pacmoonDir then { s with pacmoonDir := res.2 } else s
    else s
  if s.pacmoonDir = .none then s
  else
    let v := DIR_V s.pacmoonDir
    let newX := s.pacmoonPos.x + (v.1 : Rat) * speed
    let newY := s.pacmoonPos.y + (v.2 : Rat) * speed
    if canMoveTo s.grid { x := newX, y := newY } s.pacmoonDir then
      wrapPosition { s with pacmoonPos := { x := newX, y := newY } }
    else
      { snapToCenter s with pacmoonDir := .none }

/-- `GameEngine.checkPelletConsumption`: consume the collectible under the
player; a pellet scores, a power pellet additionally resets the eaten
combo and frightens every (non-eaten) ghost. -/
def checkPelletConsumption (s : EngineState) : EngineState :=
  let tilePos := s.grid.posToTile s.pacmoonPos
  let res := s.grid.consumePellet tilePos
  let s := { s with grid := res.2 }
  if res.1 = some .pellet then
    { s with hud := { s.hud with score := s.hud.score + PELLET_SCORE } }
  else if res.1 = some .power then
    let duration := getFrightenedDurationMs s.hud.level
    { s with
      hud := { s.hud with score := s.hud.score + POWER_PELLET_SCORE },
      ghostsEatenCombo := 0,
      ghosts := s.ghosts.map (fun ghost => ghost.setFrightened duration) }
  else s

/-- The pixel centre of the ghost-house target tile, as computed inside
`GameEngine.updateGhosts`. -/
def houseCenter : Vec2 :=
  { x := ((GHOST_HOUSE_TARGET.col : Rat) + 1 / 2) * BASE_TILE,
    y := ((GHOST_HOUSE_TARGET.row : Rat) + 1 / 2) * BASE_TILE }

/-- The first phase of the per-ghost loop body of
`GameEngine.updateGhosts`: frightened countdown, global-mode sync, target
update, direction choice at tile centres, and movement with wrap.
`raPos` is the (live) position of the `ra` ghost and `randVal` the
`Math.random()` draw used by frightened targeting. -/
def ghostAdvance (ghost : Ghost) (dtMs : Rat) (globalMode : GlobalMode)
    (pacmoonPos : Vec2) (pacmoonDir : Dir) (raPos : Vec2) (grid : MapGrid)
    (randVal : Rat) : Ghost :=
  let g1 := ghost.updateFrightened dtMs globalMode
  let g2 :=
    if g1.mode ≠ .frightened ∧ g1.mode ≠ .eaten then
      { g1 with mode := globalMode.toGhostMode }
    else g1
  let g3 := updateGhostTarget g2 pacmoonPos pacmoonDir raPos grid randVal
  let g4 :=
    if g3.isAtTileCenter then
      let newDir := chooseGhostDirection g3 grid
      if newDir ≠ .none then { g3 with dir := newDir } else g3
    else g3
  let tile := g4.getTilePos
  let isInTunnel := grid.getTile tile = .tunnel
  let speed := g4.getSpeed isInTunnel * (dtMs / 1000)
  if g4.dir ≠ .none then
    let v := DIR_V g4.dir
    ({ g4 with pos := { x := g4.pos.x + (v.1 : Rat) * speed,
                        y := g4.pos.y + (v.2 : Rat) * speed } }).wrapPosition
  else g4

/-- The final phase of the per-ghost loop body of
`GameEngine.updateGhosts`: an eaten ghost within Manhattan distance 4 of
the house centre respawns and is snapped onto the house centre. -/
def ghostEatenArrival (g : Ghost) : Ghost :=
  if g.mode = .eaten then
    let dist := |g.pos.x - houseCenter.x| + |g.pos.y - houseCenter.y|
    if dist < 4 then { g.respawn with pos := houseCenter } else g
  else g

/-- The per-ghost body of the `for` loop in `GameEngine.updateGhosts`.
`raIdx` is the index of the ghost the pre-loop
`this.ghosts.find(g => g.name === 'ra')` resolved to; its *current*
position is re-read on every iteration (the source passes the live
`ra.pos` reference).  The random stream advances exactly when the source
calls `Math.random()`, i.e. when the ghost is frightened at targeting
time. -/
def updateOneGhost (s : EngineState) (dtMs : Rat) (raIdx : Nat) (i : Nat) :
    EngineState :=
  match s.ghosts.get? i with
  | Option.none => s
  | some ghost =>
    let g1 := ghost.updateFrightened dtMs s.globalMode
    let g2 :=
      if g1.mode ≠ .frightened ∧ g1.mode ≠ .eaten then
        { g1 with mode := s.globalMode.toGhostMode }
      else g1
    let raPos := ((s.ghosts.getD raIdx g2).pos)
    let randVal := s.rng s.rngIdx
    let rngIdx' := if g2.mode = .frightened then s.rngIdx + 1 else s.rngIdx
    let adv := ghostAdvance ghost dtMs s.globalMode s.pacmoonPos
      s.pacmoonDir raPos s.grid randVal
    { s with ghosts := s.ghosts.set i (ghostEatenArrival adv),
             rngIdx := rngIdx' }

/-- `GameEngine.updateGhosts`.  The source's non-null assertion on the
`ra` lookup is modelled by returning the state unchanged when no ghost is
named `ra`; every engine-constructed state has one. -/
def updateGhosts (s : EngineState) (dtMs : Rat) : EngineState :=
  match s.ghosts.findIdx? (fun g => g.name = .ra) with
  | Option.none => s
  | some raIdx =>
    (List.range s.ghosts.length).foldl
      (fun st i => updateOneGhost st dtMs raIdx i) s

/-- `GameEngine.resetPositions`: player and ghosts back to their spawns,
mode machinery rewound (score/level untouched).  The source indexes
`GHOST_NAMES[i]`; engine states carry exactly 4 ghosts, and a ghost
beyond the 4 names is left unchanged. -/
def resetPositions (s : EngineState) : EngineState :=
  let s := { s with
    pacmoonPos := s.grid.tileToPos s.levelData.pacmoonSpawn,
    pacmoonDir := .none, desiredDir := .none,
    modeTimer := 0, modeIndex := 0, globalMode := .scatter }
  let ghosts := (List.range s.ghosts.length).map (fun i =>
    let old := s.ghosts.getD i (mkGhost .ra s.pacmoonPos GHOST_HOUSE_TARGET)
    match GHOST_NAMES.get? i with
    | Option.none => old
    | some name =>
      { old with
        pos := s.grid.tileToPos (s.levelData.ghostSpawns name),
        mode := .scatter, frightenedTimeRemaining := 0,
        dir := if name = .ra then .left else .up })
  { s with ghosts := ghosts }

/-- `GameEngine.handleLifeLost` (the `console.log` is omitted). -/
def handleLifeLost (s : EngineState) : EngineState :=
  let lives := s.hud.lives - 1
  if lives ≤ 0 then
    { s with hud := { s.hud with lives := lives, phase := .game_over } }
  else
    resetPositions
      { s with hud := { s.hud with lives := lives, phase := .life_lost } }

/-- The per-ghost body of `GameEngine.checkGhostCollisions`; the returned
flag is `true` when the loop `return`s early (life lost).
`Math.sqrt(dx² + dy²) < COLLISION_DIST_PX` is modelled squared. -/
def collideAt (s : EngineState) (i : Nat) : EngineState × Bool :=
  match s.ghosts.get? i with
  | Option.none => (s, false)
  | some ghost =>
    let dx := s.pacmoonPos.x - ghost.pos.x
    let dy := s.pacmoonPos.y - ghost.pos.y
    if dx * dx + dy * dy < COLLISION_DIST_PX ^ 2 then
      if ghost.mode = .frightened then
        let combo := s.ghostsEatenCombo + 1
        let score := GHOST_BASE_SCORE * 2 ^ (combo - 1)
        ({ s with
           ghosts := s.ghosts.set i ghost.setEaten,
           ghostsEatenCombo := combo,
           hud := { s.hud with score := s.hud.score + score } }, false)
      else if ghost.mode ≠ .eaten then (handleLifeLost s, true)
      else (s, false)
    else (s, false)

/-- The `for` loop of `GameEngine.checkGhostCollisions`, over ghost
indices `i, i+1, …` with `rem` iterations left and early exit. -/
def collideLoop (s : EngineState) : Nat → Nat → EngineState
  | 0, _ => s
  | rem + 1, i =>
    let res := collideAt s i
    if res.2 then res.1 else collideLoop res.1 rem (i + 1)

/-- `GameEngine.checkGhostCollisions`. -/
def checkGhostCollisions (s : EngineState) : EngineState :=
  collideLoop s s.ghosts.length 0

/-- `GameEngine.checkLevelClear`. -/
def checkLevelClear (s : EngineState) : EngineState :=
  if s.grid.getPelletsRemaining = 0 then
    { s with hud := { s.hud with phase := .level_clear } }
  else s

/-- The opening lines of `GameEngine.update`: advance the simulation
clock and the power-pellet blink timer. -/
def updatePreamble (s : EngineState) (dtMs : Rat) : EngineState :=
  let s := { s with gameTimeMs := s.gameTimeMs + dtMs }
  let blinkTimer := s.blinkTimer + dtMs
  if blinkTimer ≥ 200 then
    { s with blinkTimer := 0, powerPelletBlink := ¬ s.powerPelletBlink }
  else { s with blinkTimer := blinkTimer }

/-- `GameEngine.update`: one fixed-timestep simulation tick. -/
def update (s : EngineState) (dtMs : Rat) : EngineState :=
  let s := updatePreamble s dtMs
  let s := updateModeTimer s dtMs
  let s := updatePacmoon s dtMs
  let s := checkPelletConsumption s
  let s := updateGhosts s dtMs
  let s := checkGhostCollisions s
  checkLevelClear s

/-! ## Grid lemmas and the collectible-count invariant -/

/-- Number of collectible (pellet or power) tiles in one row. -/
def rowCollectibles : List Tile → Int
  | [] => 0
  | t :: ts => (if t = .pellet ∨ t = .power then 1 else 0) + rowCollectibles ts

/-- Number of collectible tiles in the whole matrix. -/
def gridCollectibles : List (List Tile) → Int
  | [] => 0
  | r :: rs => rowCollectibles r + gridCollectibles rs

/-- The counter/matrix invariant of `MapGrid`. -/
def GridInv (g : MapGrid) : Prop :=
  g.pelletsRemaining = gridCollectibles g.tiles

theorem rowCollectibles_append (l₁ l₂ : List Tile) :
    rowCollectibles (l₁ ++ l₂) = rowCollectibles l₁ + rowCollectibles l₂ := by
  induction l₁ with
  | nil => simp [rowCollectibles]
  | cons t ts ih => simp [rowCollectibles, ih]; ring

theorem gridCollectibles_append (l₁ l₂ : List (List Tile)) :
    gridCollectibles (l₁ ++ l₂) =
      gridCollectibles l₁ + gridCollectibles l₂ := by
  induction l₁ with
  | nil => simp [gridCollectibles]
  | cons r rs ih => simp [gridCollectibles, ih]; ring

theorem rowCollectibles_set (l : List Tile) (c : Nat) (x : Tile)
    (hc : c < l.length) :
    rowCollectibles (l.set c x) =
      rowCollectibles l - (if l.getD c .wall = .pellet ∨ l.getD c .wall = .power then (1:Int) else 0)
        + (if x = .pellet ∨ x = .power then 1 else 0) := by
  induction l generalizing c with
  | nil => simp at hc
  | cons t ts ih =>
    cases c with
    | zero => simp [rowCollectibles, List.getD]; ring
    | succ n =>
      simp only [List.set, rowCollectibles, List.getD_cons_succ]
      rw [ih n (by simpa using hc)]
      ring

theorem gridCollectibles_set (l : List (List Tile)) (r : Nat)
    (x : List Tile) (hr : r < l.length) :
    gridCollectibles (l.set r x) =
      gridCollectibles l - rowCollectibles (l.getD r []) + rowCollectibles x := by
  induction l generalizing r with
  | nil => simp at hr
  | cons hd tl ih =>
    cases r with
    | zero => simp [gridCollectibles, List.getD]; ring
    | succ n =>
      simp only [List.set, gridCollectibles, List.getD_cons_succ]
      rw [ih n (by simpa using hr)]
      ring

theorem listGetD_ne_default {α : Type} [DecidableEq α] (l : List α) (i : Nat)
    (d : α) (h : l.getD i d ≠ d) : i < l.length := by
  by_contra hlen
  rw [List.getD_eq_getElem?_getD, List.getElem?_eq_none (by omega)] at h
  simp at h

theorem listGetD_set_self {α : Type} (l : List α) (i : Nat) (a d : α)
    (h : i < l.length) : (l.set i a).getD i d = a := by
  rw [List.getD_eq_getElem?_getD, List.getElem?_set_self h]
  rfl

/-- Facts recoverable from a collectible `getTile` result: the position is
in bounds, the matrix really has that entry, and the entry is `t`. -/
theorem getTile_collectible_facts (g : MapGrid) (pos : TilePos) (t : Tile)
    (h : g.getTile pos = t) (ht : t = .pellet ∨ t = .power) :
    ¬(pos.row < 0 ∨ pos.row ≥ g.rows) ∧ ¬(pos.col < 0 ∨ pos.col ≥ g.cols) ∧
    pos.row.toNat < g.tiles.length ∧
    pos.col.toNat < (g.tiles.getD pos.row.toNat []).length ∧
    (g.tiles.getD pos.row.toNat []).getD pos.col.toNat .wall = t := by
  have htw : t ≠ .wall := by rcases ht with h' | h' <;> simp [h']
  unfold MapGrid.getTile at h
  by_cases h1 : pos.row < 0 ∨ pos.row ≥ g.rows
  · rw [if_pos h1] at h; exact absurd h.symm htw
  rw [if_neg h1] at h
  by_cases h2 : pos.col < 0 ∨ pos.col ≥ g.cols
  · rw [if_pos h2] at h; exact absurd h.symm htw
  rw [if_neg h2] at h
  have hrow : g.tiles.getD pos.row.toNat [] ≠ ([] : List Tile) := by
    intro he
    rw [he] at h
    simp [List.getD] at h
    exact htw h.symm
  have hrl : pos.row.toNat < g.tiles.length :=
    listGetD_ne_default _ _ _ hrow
  have hcl : pos.col.toNat < (g.tiles.getD pos.row.toNat []).length := by
    apply listGetD_ne_default _ _ _
    rw [h]; exact htw
  exact ⟨h1, h2, hrl, hcl, h⟩

/-- `consumePellet` on a non-collectible tile is a no-op returning
`none`. -/
theorem consumePellet_noncollectible (g : MapGrid) (pos : TilePos)
    (h : ¬(g.getTile pos = .pellet ∨ g.getTile pos = .power)) :
    g.consumePellet pos = (Option.none, g) := by
  unfold MapGrid.consumePellet
  simp only
  rw [if_neg h]

/-- C4: a first `consumePellet` on a collectible tile returns the
collectible and decrements the counter by 1; an immediate second call on
the same tile returns `none` and leaves the whole grid unchanged. -/
theorem consumePellet_twice (g : MapGrid) (pos : TilePos) (t : Tile)
    (h : g.getTile pos = t) (ht : t = .pellet ∨ t = .power) :
    (g.consumePellet pos).1 = some t ∧
    (g.consumePellet pos).2.pelletsRemaining = g.pelletsRemaining - 1 ∧
    ((g.consumePellet pos).2.consumePellet pos).1 = Option.none ∧
    ((g.consumePellet pos).2.consumePellet pos).2 = (g.consumePellet pos).2
    := by
  obtain ⟨h1, h2, hrl, hcl, hentry⟩ := getTile_collectible_facts g pos t h ht
  have hfirst : g.consumePellet pos =
      (some t, { (g.setTile pos .empty) with
                 pelletsRemaining := g.pelletsRemaining - 1 }) := by
    unfold MapGrid.consumePellet
    simp only
    rw [h, if_pos ht]
  have hsecond_tile :
      ((g.consumePellet pos).2).getTile pos = .empty := by
    rw [hfirst]
    show ({ (g.setTile pos .empty) with
            pelletsRemaining := g.pelletsRemaining - 1 } : MapGrid).getTile pos
      = .empty
    unfold MapGrid.getTile MapGrid.setTile
    rw [if_neg h1, if_neg h2]
    simp only [if_neg h1, if_neg h2]
    rw [listGetD_set_self _ _ _ _ hrl, listGetD_set_self _ _ _ _ hcl]
  have hsecond := consumePellet_noncollectible ((g.consumePellet pos).2) pos
    (by rw [hsecond_tile]; simp)
  refine ⟨by rw [hfirst], by rw [hfirst], by rw [hsecond], by rw [hsecond]⟩

/-- Witness for `consumePellet_twice` at a concrete grid and tile. -/
theorem consumePellet_twice_witness :
    (({ cols := 2, rows := 1, tiles := [[Tile.pellet, Tile.power]],
        pelletsRemaining := 2 } : MapGrid).getTile ⟨0, 0⟩ = Tile.pellet) ∧
    (({ cols := 2, rows := 1, tiles := [[Tile.pellet, Tile.power]],
        pelletsRemaining := 2 } : MapGrid).consumePellet ⟨0, 0⟩).1
      = some Tile.pellet := by
  refine ⟨by decide, ?_⟩
  exact (consumePellet_twice
    { cols := 2, rows := 1, tiles := [[Tile.pellet, Tile.power]],
      pelletsRemaining := 2 } ⟨0, 0⟩ Tile.pellet (by decide) (by decide)).1

/-- A fold preserves any invariant its step preserves. -/
theorem foldl_inv {α β : Type} (P : β → Prop) (f : β → α → β)
    (hstep : ∀ b a, P b → P (f b a)) :
    ∀ (xs : List α) (b : β), P b → P (xs.foldl f b) := by
  intro xs
  induction xs with
  | nil => intro b hb; exact hb
  | cons x xs ih => intro b hb; exact ih _ (hstep b x hb)

/-- C9, part 1: the constructor establishes the counter invariant. -/
theorem mkMapGrid_inv (levelData : LevelData) :
    GridInv (mkMapGrid levelData) := by
  have hmain := @foldl_inv Nat (List (List Tile) × Int)
    (fun acc => acc.2 = gridCollectibles acc.1)
    (fun acc row =>
      let mazeRow := levelData.maze.getD row []
      let rowRes := (List.range COLS.toNat).foldl
        (fun (racc : List Tile × Int) (col : Nat) =>
          let char := mazeRow.getD col ' '
          let tile := charToTile char
          (racc.1 ++ [tile],
           if tile = .pellet ∨ tile = .power then racc.2 + 1 else racc.2))
        ([], acc.2)
      (acc.1 ++ [rowRes.1], rowRes.2))
    ?_ (List.range ROWS.toNat) ([], 0) (by simp [gridCollectibles])
  · exact hmain
  · intro acc row hacc
    have hrow := @foldl_inv Nat (List Tile × Int)
      (fun racc => racc.2 = acc.2 + rowCollectibles racc.1)
      (fun racc col =>
        let char := (levelData.maze.getD row []).getD col ' '
        let tile := charToTile char
        (racc.1 ++ [tile],
         if tile = .pellet ∨ tile = .power then racc.2 + 1 else racc.2))
      ?_ (List.range COLS.toNat) ([], acc.2) (by simp [rowCollectibles])
    · show (_, _).2 = gridCollectibles ((_, _) : List (List Tile) × Int).1
      dsimp only
      rw [gridCollectibles_append, hrow, hacc]
      simp [gridCollectibles]
    · intro racc col hracc
      dsimp only
      rw [rowCollectibles_append]
      split
      next hcond =>
        simp only [rowCollectibles]
        rw [if_pos hcond]
        linarith [hracc]
      next hcond =>
        simp only [rowCollectibles]
        rw [if_neg hcond]
        linarith [hracc]

/-- C9, part 2: `consumePellet` preserves the counter invariant. -/
theorem consumePellet_preserves_inv (g : MapGrid) (pos : TilePos)
    (h : GridInv g) : GridInv (g.consumePellet pos).2 := by
  by_cases hcol : g.getTile pos = .pellet ∨ g.getTile pos = .power
  · obtain ⟨h1, h2, hrl, hcl, hentry⟩ :=
      getTile_collectible_facts g pos (g.getTile pos) rfl hcol
    have hfirst : g.consumePellet pos =
        (some (g.getTile pos),
         { (g.setTile pos .empty) with
           pelletsRemaining := g.pelletsRemaining - 1 }) := by
      unfold MapGrid.consumePellet
      simp only
      rw [if_pos hcol]
    rw [hfirst]
    show g.pelletsRemaining - 1 = gridCollectibles (g.setTile pos .empty).tiles
    have hset : (g.setTile pos .empty).tiles =
        g.tiles.set pos.row.toNat
          ((g.tiles.getD pos.row.toNat []).set pos.col.toNat .empty) := by
      unfold MapGrid.setTile
      rw [if_neg h1, if_neg h2]
    rw [hset, gridCollectibles_set _ _ _ hrl, rowCollectibles_set _ _ _ hcl,
        hentry, if_pos hcol]
    have : GridInv g := h
    unfold GridInv at this
    simp
    omega
  · rw [consumePellet_noncollectible g pos hcol]
    exact h

/-- C9: the remaining-collectible counter always equals the number of
pellet/power tiles in the matrix: the constructor establishes the
invariant from the level data, every `consumePellet` call preserves it,
and a `consumePellet` on an out-of-bounds position returns `none` and
changes nothing. -/
theorem grid_counter_invariant :
    (∀ levelData : LevelData, GridInv (mkMapGrid levelData)) ∧
    (∀ (g : MapGrid) (pos : TilePos), GridInv g →
       GridInv (g.consumePellet pos).2) ∧
    (∀ (g : MapGrid) (pos : TilePos),
       (pos.row < 0 ∨ pos.row ≥ g.rows ∨ pos.col < 0 ∨ pos.col ≥ g.cols) →
       g.consumePellet pos = (Option.none, g)) := by
  refine ⟨mkMapGrid_inv, consumePellet_preserves_inv, ?_⟩
  intro g pos hoob
  apply consumePellet_noncollectible
  have : g.getTile pos = .wall := by
    unfold MapGrid.getTile
    rcases hoob with h | h | h | h
    · rw [if_pos (Or.inl h)]
    · rw [if_pos (Or.inr h)]
    · by_cases hr : pos.row < 0 ∨ pos.row ≥ g.rows
      · rw [if_pos hr]
      · rw [if_neg hr, if_pos (Or.inl h)]
    · by_cases hr : pos.row < 0 ∨ pos.row ≥ g.rows
      · rw [if_pos hr]
      · rw [if_neg hr, if_pos (Or.inr h)]
  rw [this]
  simp

/-- A tiny concrete level used by the witnesses below. -/
def wLevelData : LevelData :=
  { maze := [[], [' ', '.', 'o']],
    pacmoonSpawn := ⟨1, 1⟩,
    ghostSpawns := fun _ => ⟨1, 1⟩,
    scatterTargets := fun _ => ⟨1, 1⟩ }

/-- Witness for `grid_counter_invariant` at a concrete level, consumption
position and out-of-bounds position. -/
theorem grid_counter_invariant_witness :
    GridInv (mkMapGrid wLevelData) ∧
    GridInv ((mkMapGrid wLevelData).consumePellet ⟨1, 1⟩).2 ∧
    (mkMapGrid wLevelData).consumePellet ⟨-1, 30⟩ =
      (Option.none, mkMapGrid wLevelData) :=
  ⟨grid_counter_invariant.1 wLevelData,
   grid_counter_invariant.2.1 _ _ (grid_counter_invariant.1 wLevelData),
   grid_counter_invariant.2.2 _ _ (by decide)⟩

/-! ## Ghost-mode claims -/

/-- C5: when a frightened pursuer's countdown expires on an update, its
mode becomes whatever the global mode is at that moment (so a ghost
frightened out of chase returns to chase while the global mode is still
chase), and the countdown is cleared. -/
theorem frightened_expiry_resumes_global (g : Ghost) (dtMs : Rat)
    (globalMode : GlobalMode) (hm : g.mode = .frightened)
    (hexp : g.frightenedTimeRemaining - dtMs ≤ 0) :
    (g.updateFrightened dtMs globalMode).mode = globalMode.toGhostMode ∧
    (g.updateFrightened dtMs globalMode).frightenedTimeRemaining = 0 := by
  unfold Ghost.updateFrightened
  rw [hm]
  simp [hexp]

/-- A concrete frightened ghost used by the C5 witness. -/
def wGhost : Ghost :=
  { mkGhost .ra ⟨0, 0⟩ ⟨0, 0⟩ with
    mode := .frightened, frightenedTimeRemaining := 100 }

/-- Witness for `frightened_expiry_resumes_global`: a chase-frightened
ghost whose countdown expires under a still-chase global mode resumes
`chase`, not `scatter`. -/
theorem frightened_expiry_resumes_global_witness :
    (wGhost.updateFrightened 200 .chase).mode = GhostMode.chase :=
  (frightened_expiry_resumes_global wGhost 200 .chase (by rfl)
    (by norm_num [wGhost])).1

/-- Targeting only changes `targetTile`. -/
theorem updateGhostTarget_mode_ftr (g : Ghost) (pacmoonPos : Vec2)
    (pacmoonDir : Dir) (raPos : Vec2) (grid : MapGrid) (randVal : Rat) :
    (updateGhostTarget g pacmoonPos pacmoonDir raPos grid randVal).mode
      = g.mode ∧
    (updateGhostTarget g pacmoonPos pacmoonDir raPos grid
        randVal).frightenedTimeRemaining = g.frightenedTimeRemaining ∧
    (updateGhostTarget g pacmoonPos pacmoonDir raPos grid randVal).pos
      = g.pos := by
  unfold updateGhostTarget
  repeat' split
  all_goals simp

/-- Horizontal wrap only changes the position. -/
theorem ghost_wrapPosition_mode_ftr (g : Ghost) :
    (g.wrapPosition).mode = g.mode ∧
    (g.wrapPosition).frightenedTimeRemaining = g.frightenedTimeRemaining :=
  by
  unfold Ghost.wrapPosition
  dsimp only
  constructor
  · split
    · rfl
    · split <;> rfl
  · split
    · rfl
    · split <;> rfl

/-- An eaten ghost stays eaten (with untouched countdown) through the
advance phase of the per-ghost update: the frightened tick ignores it,
the global-mode sync skips it, and targeting, direction choice and
movement only touch `targetTile`, `dir` and `pos`. -/
theorem ghostAdvance_eaten (ghost : Ghost) (dtMs : Rat)
    (globalMode : GlobalMode) (pacmoonPos : Vec2) (pacmoonDir : Dir)
    (raPos : Vec2) (grid : MapGrid) (randVal : Rat)
    (hmode : ghost.mode = .eaten) :
    (ghostAdvance ghost dtMs globalMode pacmoonPos pacmoonDir raPos grid
        randVal).mode = .eaten ∧
    (ghostAdvance ghost dtMs globalMode pacmoonPos pacmoonDir raPos grid
        randVal).frightenedTimeRemaining = ghost.frightenedTimeRemaining
    := by
  have h1 : ghost.updateFrightened dtMs globalMode = ghost := by
    unfold Ghost.updateFrightened
    rw [hmode]
    simp
  unfold ghostAdvance
  rw [h1]
  dsimp only
  rw [hmode]
  simp only [ne_eq, not_true_eq_false, and_false, if_false]
  obtain ⟨ht1, ht2, _⟩ := updateGhostTarget_mode_ftr ghost pacmoonPos
    pacmoonDir raPos grid randVal
  constructor
  all_goals repeat' split
  all_goals
    first
    | (rw [(ghost_wrapPosition_mode_ftr _).1]; simp [ht1, hmode])
    | (rw [(ghost_wrapPosition_mode_ftr _).2]; simp [ht2])
    | simp [ht1, hmode]
    | simp [ht2]

/-- `setEaten` clears the countdown, so eaten ghosts always carry a zero
countdown (the only transition into `eaten`). -/
theorem setEaten_clears_countdown (g : Ghost) :
    (g.setEaten).mode = .eaten ∧ (g.setEaten).frightenedTimeRemaining = 0 :=
  ⟨rfl, rfl⟩

/-- The zero-countdown-when-eaten invariant is preserved by the
frightening entry point (`setFrightened` skips eaten ghosts). -/
theorem setFrightened_eaten_inv (g : Ghost) (durationMs : Rat)
    (h : g.mode = .eaten → g.frightenedTimeRemaining = 0) :
    (g.setFrightened durationMs).mode = .eaten →
    (g.setFrightened durationMs).frightenedTimeRemaining = 0 := by
  unfold Ghost.setFrightened
  split
  · exact h
  · unfold Ghost.reverseDirection
    split <;> simp

/-- C6: an eaten pursuer whose position, after the movement phase of the
per-ghost update, is within the Manhattan tolerance 4 of the ghost-house
centre is respawned: its mode is set to `scatter` unconditionally
(whatever the global mode is), its countdown is 0 afterwards, and it is
snapped onto the house centre.  The zero-countdown hypothesis is the
reachability invariant established by `setEaten_clears_countdown` and
`setFrightened_eaten_inv`. -/
theorem eaten_reaching_home_resets_scatter (ghost : Ghost) (dtMs : Rat)
    (globalMode : GlobalMode) (pacmoonPos : Vec2) (pacmoonDir : Dir)
    (raPos : Vec2) (grid : MapGrid) (randVal : Rat)
    (hmode : ghost.mode = .eaten)
    (hftr : ghost.frightenedTimeRemaining = 0)
    (hdist :
      |(ghostAdvance ghost dtMs globalMode pacmoonPos pacmoonDir raPos grid
          randVal).pos.x - houseCenter.x| +
      |(ghostAdvance ghost dtMs globalMode pacmoonPos pacmoonDir raPos grid
          randVal).pos.y - houseCenter.y| < 4) :
    (ghostEatenArrival (ghostAdvance ghost dtMs globalMode pacmoonPos
        pacmoonDir raPos grid randVal)).mode = .scatter ∧
    (ghostEatenArrival (ghostAdvance ghost dtMs globalMode pacmoonPos
        pacmoonDir raPos grid randVal)).frightenedTimeRemaining = 0 ∧
    (ghostEatenArrival (ghostAdvance ghost dtMs globalMode pacmoonPos
        pacmoonDir raPos grid randVal)).pos = houseCenter := by
  obtain ⟨hm, hf⟩ := ghostAdvance_eaten ghost dtMs globalMode pacmoonPos
    pacmoonDir raPos grid randVal hmode
  unfold ghostEatenArrival
  rw [hm]
  dsimp only
  rw [if_pos rfl, if_pos hdist]
  unfold Ghost.respawn
  exact ⟨rfl, by rw [hf, hftr], rfl⟩

/-- An empty-matrix grid of engine dimensions (every lookup defaults to
`wall`), used to keep witness evaluation small. -/
def wGrid : MapGrid :=
  { cols := 40, rows := 25, tiles := [], pelletsRemaining := 0 }

/-- A concrete eaten ghost 1px right of the house centre, off tile
centre, not moving. -/
def wEatenGhost : Ghost :=
  { mkGhost .ra ⟨217, 232⟩ ⟨0, 0⟩ with mode := .eaten, dir := .none }

/-- Witness for `eaten_reaching_home_resets_scatter` under a `chase`
global mode. -/
theorem eaten_reaching_home_resets_scatter_witness :
    (ghostEatenArrival (ghostAdvance wEatenGhost FRAME_MS .chase ⟨0, 0⟩
        .none ⟨0, 0⟩ wGrid 0)).mode = GhostMode.scatter :=
  (eaten_reaching_home_resets_scatter wEatenGhost FRAME_MS .chase ⟨0, 0⟩
    .none ⟨0, 0⟩ wGrid 0 (by rfl) (by rfl) (by with_unfolding_all decide)).1

/-! ## Collision claims -/

/-- The proximity test of `checkGhostCollisions`
(`Math.sqrt(dx² + dy²) < COLLISION_DIST_PX`, stated squared). -/
def collides (pacmoonPos : Vec2) (g : Ghost) : Prop :=
  (pacmoonPos.x - g.pos.x) * (pacmoonPos.x - g.pos.x) +
    (pacmoonPos.y - g.pos.y) * (pacmoonPos.y - g.pos.y)
    < COLLISION_DIST_PX ^ 2

instance (pacmoonPos : Vec2) (g : Ghost) :
    Decidable (collides pacmoonPos g) := by
  unfold collides; infer_instance

theorem collideLoop_succ (s : EngineState) (rem i : Nat) :
    collideLoop s (rem + 1) i =
      if (collideAt s i).2 then (collideAt s i).1
      else collideLoop (collideAt s i).1 rem (i + 1) := rfl

theorem collideLoop_zero (s : EngineState) (i : Nat) :
    collideLoop s 0 i = s := rfl

theorem collideAt_frightened (s : EngineState) (i : Nat) (g : Ghost)
    (hgi : s.ghosts.get? i = some g) (hm : g.mode = .frightened)
    (hd : collides s.pacmoonPos g) :
    collideAt s i =
      ({ s with ghosts := s.ghosts.set i g.setEaten,
                ghostsEatenCombo := s.ghostsEatenCombo + 1,
                hud := { s.hud with score :=
                  s.hud.score + GHOST_BASE_SCORE * 2 ^ s.ghostsEatenCombo } },
       false) := by
  unfold collideAt
  rw [hgi]
  dsimp only
  have hd' : (s.pacmoonPos.x - g.pos.x) * (s.pacmoonPos.x - g.pos.x) +
      (s.pacmoonPos.y - g.pos.y) * (s.pacmoonPos.y - g.pos.y)
      < COLLISION_DIST_PX ^ 2 := hd
  rw [if_pos hd', if_pos hm]
  rfl

theorem collideAt_noHit (s : EngineState) (i : Nat) (g : Ghost)
    (hgi : s.ghosts.get? i = some g) (hd : ¬ collides s.pacmoonPos g) :
    collideAt s i = (s, false) := by
  unfold collideAt
  rw [hgi]
  dsimp only
  have hd' : ¬((s.pacmoonPos.x - g.pos.x) * (s.pacmoonPos.x - g.pos.x) +
      (s.pacmoonPos.y - g.pos.y) * (s.pacmoonPos.y - g.pos.y)
      < COLLISION_DIST_PX ^ 2) := hd
  rw [if_neg hd']

theorem collideAt_deadly (s : EngineState) (i : Nat) (g : Ghost)
    (hgi : s.ghosts.get? i = some g) (hd : collides s.pacmoonPos g)
    (hm1 : g.mode ≠ .frightened) (hm2 : g.mode ≠ .eaten) :
    collideAt s i = (handleLifeLost s, true) := by
  unfold collideAt
  rw [hgi]
  dsimp only
  have hd' : (s.pacmoonPos.x - g.pos.x) * (s.pacmoonPos.x - g.pos.x) +
      (s.pacmoonPos.y - g.pos.y) * (s.pacmoonPos.y - g.pos.y)
      < COLLISION_DIST_PX ^ 2 := hd
  rw [if_pos hd', if_neg hm1, if_pos hm2]

/-- C7: with the eaten-combo counter at 0 (as it is right after a power
pellet), three frightened colliding pursuers processed by one
`checkGhostCollisions` pass are awarded `base`, `base×2` and `base×4`
points in that order (the n-th eat awards `base × 2^(n−1)`), for a total
of `base × 7` and a final combo of 3. -/
theorem frightened_combo_scoring (s : EngineState) (a b c d : Ghost)
    (hg : s.ghosts = [a, b, c, d]) (hcombo : s.ghostsEatenCombo = 0)
    (ha : a.mode = .frightened) (hb : b.mode = .frightened)
    (hc : c.mode = .frightened)
    (hda : collides s.pacmoonPos a) (hdb : collides s.pacmoonPos b)
    (hdc : collides s.pacmoonPos c) (hdd : ¬ collides s.pacmoonPos d) :
    (collideAt s 0).1.hud.score = s.hud.score + GHOST_BASE_SCORE * 2 ^ 0 ∧
    (collideAt (collideAt s 0).1 1).1.hud.score =
      (collideAt s 0).1.hud.score + GHOST_BASE_SCORE * 2 ^ 1 ∧
    (collideAt (collideAt (collideAt s 0).1 1).1 2).1.hud.score =
      (collideAt (collideAt s 0).1 1).1.hud.score
        + GHOST_BASE_SCORE * 2 ^ 2 ∧
    checkGhostCollisions s =
      (collideAt (collideAt (collideAt s 0).1 1).1 2).1 ∧
    (checkGhostCollisions s).hud.score =
      s.hud.score + GHOST_BASE_SCORE * (1 + 2 + 4) ∧
    (checkGhostCollisions s).ghostsEatenCombo = 3 := by
  have e1 := collideAt_frightened s 0 a (by rw [hg]; rfl) ha hda
  have hs1g : (collideAt s 0).1.ghosts = [a.setEaten, b, c, d] := by
    rw [e1]; rw [hg]; rfl
  have hs1p : (collideAt s 0).1.pacmoonPos = s.pacmoonPos := by rw [e1]
  have hs1c : (collideAt s 0).1.ghostsEatenCombo = 1 := by
    rw [e1]; dsimp only; rw [hcombo]
  have e2 := collideAt_frightened (collideAt s 0).1 1 b
    (by rw [hs1g]; rfl) hb (by rw [hs1p]; exact hdb)
  have hs2g : (collideAt (collideAt s 0).1 1).1.ghosts =
      [a.setEaten, b.setEaten, c, d] := by
    rw [e2]; rw [hs1g]; rfl
  have hs2p : (collideAt (collideAt s 0).1 1).1.pacmoonPos = s.pacmoonPos :=
    by rw [e2]; dsimp only; exact hs1p
  have hs2c : (collideAt (collideAt s 0).1 1).1.ghostsEatenCombo = 2 := by
    rw [e2]; dsimp only; rw [hs1c]
  have e3 := collideAt_frightened (collideAt (collideAt s 0).1 1).1 2 c
    (by rw [hs2g]; rfl) hc (by rw [hs2p]; exact hdc)
  have hs3g : (collideAt (collideAt (collideAt s 0).1 1).1 2).1.ghosts =
      [a.setEaten, b.setEaten, c.setEaten, d] := by
    rw [e3]; rw [hs2g]; rfl
  have hs3p : (collideAt (collideAt (collideAt s 0).1 1).1 2).1.pacmoonPos
      = s.pacmoonPos := by rw [e3]; dsimp only; exact hs2p
  have hs3c :
      (collideAt (collideAt (collideAt s 0).1 1).1 2).1.ghostsEatenCombo
      = 3 := by rw [e3]; dsimp only; rw [hs2c]
  have e4 := collideAt_noHit (collideAt (collideAt (collideAt s 0).1 1).1
      2).1 3 d (by rw [hs3g]; rfl) (by rw [hs3p]; exact hdd)
  have b1 : (collideAt s 0).2 = false := by rw [e1]
  have b2 : (collideAt (collideAt s 0).1 1).2 = false := by rw [e2]
  have b3 : (collideAt (collideAt (collideAt s 0).1 1).1 2).2 = false := by
    rw [e3]
  have b4 : (collideAt (collideAt (collideAt (collideAt s 0).1 1).1 2).1
      3).2 = false := by rw [e4]
  have c4 : (collideAt (collideAt (collideAt (collideAt s 0).1 1).1 2).1
      3).1 = (collideAt (collideAt (collideAt s 0).1 1).1 2).1 := by
    rw [e4]
  have hloop : checkGhostCollisions s =
      (collideAt (collideAt (collideAt s 0).1 1).1 2).1 := by
    unfold checkGhostCollisions
    rw [hg]
    show collideLoop s 4 0 = _
    rw [show (4 : Nat) = 3 + 1 from rfl, collideLoop_succ, b1,
      if_neg Bool.false_ne_true]
    rw [show (3 : Nat) = 2 + 1 from rfl, collideLoop_succ, b2,
      if_neg Bool.false_ne_true]
    rw [show (2 : Nat) = 1 + 1 from rfl, collideLoop_succ, b3,
      if_neg Bool.false_ne_true]
    rw [show (1 : Nat) = 0 + 1 from rfl, collideLoop_succ, b4,
      if_neg Bool.false_ne_true]
    rw [collideLoop_zero, c4]
  refine ⟨?_, ?_, ?_, hloop, ?_, ?_⟩
  · rw [e1]; dsimp only; rw [hcombo]
  · rw [e2]; dsimp only; rw [hs1c]
  · rw [e3]; dsimp only; rw [hs2c]
  · rw [hloop, e3]
    dsimp only
    rw [hs2c, e2]
    dsimp only
    rw [hs1c, e1]
    dsimp only
    rw [hcombo]
    ring
  · rw [hloop, hs3c]

/-- C8: at one remaining life, a collision with a pursuer that is neither
frightened nor eaten (with no colliding pursuer earlier in the list)
yields lives 0 and phase `game_over`; positions, score and level are all
left as they were. -/
theorem life_loss_at_one_life (s : EngineState) (j : Nat) (g : Ghost)
    (hj : s.ghosts.get? j = some g)
    (hpre : ∀ k, k < j → ∀ gk, s.ghosts.get? k = some gk →
       ¬ collides s.pacmoonPos gk)
    (hcol : collides s.pacmoonPos g)
    (hm1 : g.mode ≠ .frightened) (hm2 : g.mode ≠ .eaten)
    (hlives : s.hud.lives = 1) :
    (checkGhostCollisions s).hud.lives = 0 ∧
    (checkGhostCollisions s).hud.phase = .game_over ∧
    (checkGhostCollisions s).hud.score = s.hud.score ∧
    (checkGhostCollisions s).hud.level = s.hud.level ∧
    (checkGhostCollisions s).pacmoonPos = s.pacmoonPos ∧
    (checkGhostCollisions s).ghosts = s.ghosts := by
  have hjlen : j < s.ghosts.length := by
    by_contra hc
    rw [List.get?_eq_none.mpr (by omega)] at hj
    simp at hj
  have hskip : ∀ m, ∀ rem i, (∀ k, k < m → collideAt s (i + k) = (s, false))
      → collideLoop s (m + rem) i = collideLoop s rem (i + m) := by
    intro m
    induction m with
    | zero => intro rem i _; rw [Nat.zero_add, Nat.add_zero]
    | succ n ih =>
      intro rem i hk
      have hn : n + 1 + rem = (n + rem) + 1 := by omega
      rw [hn, collideLoop_succ]
      have h0 := hk 0 (by omega)
      rw [Nat.add_zero] at h0
      rw [h0]
      dsimp only
      rw [if_neg Bool.false_ne_true]
      rw [ih rem (i + 1) (fun k hlt => by
        have hik : i + 1 + k = i + (k + 1) := by omega
        rw [hik]
        exact hk (k + 1) (by omega))]
      congr 1
      omega
  have hdead := collideAt_deadly s j g hj hcol hm1 hm2
  have hfinal : checkGhostCollisions s = handleLifeLost s := by
    unfold checkGhostCollisions
    have hlen : s.ghosts.length = j + (s.ghosts.length - j) := by omega
    rw [hlen, hskip j _ 0 (fun k hk => by
      have hklen : k < s.ghosts.length := by omega
      have hgk : s.ghosts.get? k = some (s.ghosts.get ⟨k, hklen⟩) :=
        List.get?_eq_get hklen
      simp only [Nat.zero_add]
      exact collideAt_noHit s k _ hgk (hpre k hk _ hgk))]
    have hrem : s.ghosts.length - j = (s.ghosts.length - j - 1) + 1 := by
      omega
    rw [hrem, Nat.zero_add, collideLoop_succ, hdead]
    dsimp only
    rw [if_pos rfl]
  have hlost : handleLifeLost s =
      { s with hud := { s.hud with lives := 0, phase := .game_over } } := by
    unfold handleLifeLost
    rw [hlives]
    norm_num
  rw [hfinal, hlost]
  exact ⟨rfl, rfl, rfl, rfl, rfl, rfl⟩

end Pacmoon

namespace Pacmoon

/-! ## Witness states for the collision claims -/

/-- A shared concrete base state (4-ghost states derive from it). -/
def wEngineBase : EngineState :=
  { levelData := wLevelData, grid := wGrid,
    pacmoonPos := ⟨40, 40⟩, pacmoonDir := .none, desiredDir := .none,
    ghosts := [], ghostsEatenCombo := 0, modeTimer := 0, modeIndex := 8,
    globalMode := .scatter,
    hud := { score := 0, lives := 3, level := 1, phase := .playing },
    gameTimeMs := 0, blinkTimer := 0, powerPelletBlink := true,
    rng := fun _ => 0, rngIdx := 0 }

/-- A concrete frightened ghost at a given position. -/
def wFrGhost (name : GhostName) (pos : Vec2) : Ghost :=
  { mkGhost name pos ⟨0, 0⟩ with mode := .frightened, dir := .none }

/-- Three frightened ghosts adjacent to the player, one far-away scatter
ghost, combo counter 0. -/
def wC7State : EngineState :=
  { wEngineBase with
    ghosts := [wFrGhost .ra ⟨41, 40⟩, wFrGhost .bastet ⟨40, 41⟩,
               wFrGhost .thoth ⟨39, 40⟩, mkGhost .anubis ⟨200, 200⟩ ⟨0, 0⟩] }

/-- Witness for `frightened_combo_scoring`: the three eats pay
`200 + 400 + 800` in total. -/
theorem frightened_combo_scoring_witness :
    (checkGhostCollisions wC7State).hud.score =
      wC7State.hud.score + GHOST_BASE_SCORE * (1 + 2 + 4) :=
  (frightened_combo_scoring wC7State _ _ _ _ (by rfl) (by rfl) (by rfl)
    (by rfl) (by rfl) (by with_unfolding_all decide)
    (by with_unfolding_all decide) (by with_unfolding_all decide)
    (by with_unfolding_all decide)).2.2.2.2.1

/-- One deadly (scatter-mode) ghost adjacent to the player, the others
far away, one life left. -/
def wC8State : EngineState :=
  { wEngineBase with
    ghosts := [{ mkGhost .ra ⟨41, 40⟩ ⟨0, 0⟩ with dir := .none },
               mkGhost .bastet ⟨200, 200⟩ ⟨0, 0⟩,
               mkGhost .thoth ⟨216, 200⟩ ⟨0, 0⟩,
               mkGhost .anubis ⟨232, 200⟩ ⟨0, 0⟩],
    hud := { score := 7, lives := 1, level := 2, phase := .playing } }

/-- Witness for `life_loss_at_one_life`. -/
theorem life_loss_at_one_life_witness :
    (checkGhostCollisions wC8State).hud.lives = 0 ∧
    (checkGhostCollisions wC8State).hud.phase = GamePhase.game_over :=
  ⟨(life_loss_at_one_life wC8State 0 _ (by rfl)
      (fun k hk => absurd hk (Nat.not_lt_zero k))
      (by with_unfolding_all decide) (by decide) (by decide) (by rfl)).1,
   (life_loss_at_one_life wC8State 0 _ (by rfl)
      (fun k hk => absurd hk (Nat.not_lt_zero k))
      (by with_unfolding_all decide) (by decide) (by decide) (by rfl)).2.1⟩

end Pacmoon

namespace Pacmoon

/-! ## C1: the tick of the last consumption -/

theorem updateOneGhost_grid (s : EngineState) (dtMs : Rat) (raIdx i : Nat) :
    (updateOneGhost s dtMs raIdx i).grid = s.grid := by
  unfold updateOneGhost
  rcases hg : s.ghosts.get? i with _ | ghost <;> rfl

theorem foldl_updateOneGhost_grid (dtMs : Rat) (raIdx : Nat) :
    ∀ (l : List Nat) (s : EngineState),
      (l.foldl (fun st i => updateOneGhost st dtMs raIdx i) s).grid = s.grid
    := by
  intro l
  induction l with
  | nil => intro s; rfl
  | cons x xs ih =>
    intro s
    rw [List.foldl_cons, ih, updateOneGhost_grid]

theorem updateGhosts_grid (s : EngineState) (dtMs : Rat) :
    (updateGhosts s dtMs).grid = s.grid := by
  unfold updateGhosts
  split
  · rfl
  · exact foldl_updateOneGhost_grid _ _ _ _

theorem resetPositions_grid (s : EngineState) :
    (resetPositions s).grid = s.grid := rfl

theorem handleLifeLost_grid (s : EngineState) :
    (handleLifeLost s).grid = s.grid := by
  unfold handleLifeLost
  dsimp only
  split
  · rfl
  · rw [resetPositions_grid]

theorem collideAt_grid (s : EngineState) (i : Nat) :
    (collideAt s i).1.grid = s.grid := by
  unfold collideAt
  split
  · rfl
  · dsimp only
    split
    · split
      · rfl
      · split
        · dsimp only
          rw [handleLifeLost_grid]
        · rfl
    · rfl

theorem collideLoop_grid :
    ∀ (rem : Nat) (s : EngineState) (i : Nat),
      (collideLoop s rem i).grid = s.grid := by
  intro rem
  induction rem with
  | zero => intro s i; rfl
  | succ n ih =>
    intro s i
    rw [collideLoop_succ]
    split
    · rw [collideAt_grid]
    · rw [ih, collideAt_grid]

theorem checkGhostCollisions_grid (s : EngineState) :
    (checkGhostCollisions s).grid = s.grid := collideLoop_grid _ _ _

/-- C1 (amended): on the tick in which the last collectible is consumed,
the phase the tick ends with is `level_clear` — the level-clear check
runs last and fires on the empty grid no matter what the ghost update and
collision handling (which still run after the consumption on that same
tick) did to score, lives or phase. -/
theorem last_pellet_tick_level_clear (s : EngineState) (dtMs : Rat)
    (h : (checkPelletConsumption (updatePacmoon
        (updateModeTimer (updatePreamble s dtMs) dtMs)
        dtMs)).grid.pelletsRemaining = 0) :
    (update s dtMs).hud.phase = .level_clear := by
  unfold update
  dsimp only
  unfold checkLevelClear MapGrid.getPelletsRemaining
  rw [if_pos (by rw [checkGhostCollisions_grid, updateGhosts_grid]; exact h)]

/-- The level data of the counterexample state: exactly one pellet, under
the player's tile (2,2). -/
def ceLevelData : LevelData :=
  { maze := [[], [], [' ', ' ', '.']],
    pacmoonSpawn := ⟨2, 2⟩,
    ghostSpawns := fun _ => ⟨5, 5⟩,
    scatterTargets := fun _ => ⟨0, 0⟩ }

/-- A stationary ghost (not at a tile centre, not moving). -/
def ceGhost (name : GhostName) (pos : Vec2) : Ghost :=
  { mkGhost name pos ⟨0, 0⟩ with dir := .none }

/-- The counterexample state: the player sits on the last pellet while
the (scatter-mode) ra ghost is 1px away, i.e. colliding. -/
def ceState : EngineState :=
  { levelData := ceLevelData, grid := mkMapGrid ceLevelData,
    pacmoonPos := ⟨40, 40⟩, pacmoonDir := .none, desiredDir := .none,
    ghosts := [ceGhost .ra ⟨41, 40⟩, ceGhost .bastet ⟨201, 200⟩,
               ceGhost .thoth ⟨217, 200⟩, ceGhost .anubis ⟨233, 200⟩],
    ghostsEatenCombo := 0, modeTimer := 0, modeIndex := 8,
    globalMode := .scatter,
    hud := { score := 0, lives := 3, level := 1, phase := .playing },
    gameTimeMs := 0, blinkTimer := 0, powerPelletBlink := true,
    rng := fun _ => 0, rngIdx := 0 }

set_option maxRecDepth 100000 in
/-- C1 counterexample: on the very tick that consumes the last
collectible (remaining count 1 → 0), a collision with a non-frightened,
non-eaten pursuer is still processed — lives drop from 3 to 2 — even
though the tick does end in `level_clear`.  This refutes "no further
score or collision processing occurs on that tick after the
consumption". -/
theorem last_pellet_tick_collision_counterexample :
    ceState.hud.phase = GamePhase.playing ∧
    ceState.hud.lives = 3 ∧
    ceState.grid.pelletsRemaining = 1 ∧
    (update ceState FRAME_MS).grid.pelletsRemaining = 0 ∧
    (update ceState FRAME_MS).hud.phase = GamePhase.level_clear ∧
    (update ceState FRAME_MS).hud.lives = 2 := by
  with_unfolding_all decide

set_option maxRecDepth 100000 in
/-- Witness for `last_pellet_tick_level_clear` at the same concrete
state. -/
theorem last_pellet_tick_level_clear_witness :
    (update ceState FRAME_MS).hud.phase = GamePhase.level_clear :=
  last_pellet_tick_level_clear ceState FRAME_MS
    (by with_unfolding_all decide)

end Pacmoon

namespace Pacmoon

/-! ## Path semantics for the pathfinder claims

A path is a list of directions; each step must move (`stepTile` changes
the tile — rows are hard bounds, columns wrap) onto a ghost-walkable
tile.  The BFS skips the reverse direction exactly when expanding the
origin tile, so a path may not use the reverse-direction edge out of the
origin tile, wherever in the path that tile is stood upon; reversing at
any other tile is allowed.  This matches the code: `bfsNextDir` explores
precisely the graph with the single directed edge
`(origin, reverseDir)` removed. -/

/-- One graph edge: stepping from `a` in the real direction `d` lands on
the distinct, ghost-walkable tile `b`. -/
def edgeStep (grid : MapGrid) (canUseDoor : Bool) (a : TilePos) (d : Dir)
    (b : TilePos) : Prop :=
  d ≠ .none ∧ stepTile grid a d = b ∧ b ≠ a ∧
    grid.isWalkableForGhost b canUseDoor = true

/-- `GPath grid cud origin rev a p b`: the direction list `p` walks from
`a` to `b` through ghost-walkable tiles, never taking the reverse
direction out of the origin tile. -/
inductive GPath (grid : MapGrid) (canUseDoor : Bool) (origin : TilePos)
    (rev : Dir) : TilePos → List Dir → TilePos → Prop where
  | nil (a : TilePos) : GPath grid canUseDoor origin rev a [] a
  | cons {a : TilePos} {d : Dir} {b : TilePos} {p : List Dir} {c : TilePos}
      (h : edgeStep grid canUseDoor a d b)
      (hrev : ¬(a = origin ∧ d = rev))
      (hp : GPath grid canUseDoor origin rev b p c) :
      GPath grid canUseDoor origin rev a (d :: p) c

/-- A path the pathfinder may take from its origin `f` to `n`. -/
def APath (grid : MapGrid) (canUseDoor : Bool) (rev : Dir) (f : TilePos)
    (p : List Dir) (n : TilePos) : Prop :=
  GPath grid canUseDoor f rev f p n

theorem GPath.snoc {grid : MapGrid} {canUseDoor : Bool} {origin : TilePos}
    {rev : Dir} {a : TilePos} {p : List Dir} {b : TilePos} {d : Dir}
    {c : TilePos} (hp : GPath grid canUseDoor origin rev a p b)
    (h : edgeStep grid canUseDoor b d c) (hr : ¬(b = origin ∧ d = rev)) :
    GPath grid canUseDoor origin rev a (p ++ [d]) c := by
  induction hp with
  | nil a => exact GPath.cons h hr (GPath.nil _)
  | cons h' hr' _ ih => exact GPath.cons h' hr' (ih h hr)

/-! ## C3: the reversal constraint -/

/-- The parent map never records an origin step in the reverse
direction. -/
def NoRevAtOrigin (origin : TilePos) (rev : Dir)
    (parent : List ParentEntry) : Prop :=
  ∀ e ∈ parent, e.2.1 = origin → e.2.2 ≠ rev

theorem traceBack_no_rev (parent : List ParentEntry) (origin : TilePos)
    (rev : Dir) (hinv : NoRevAtOrigin origin rev parent) :
    ∀ (fuel : Nat) (key : TilePos) (d : Dir),
      traceBack parent origin fuel key = some d → d ≠ rev := by
  intro fuel
  induction fuel with
  | zero => intro key d h; exact absurd h (by unfold traceBack; simp)
  | succ n ih =>
    intro key d h
    unfold traceBack at h
    rcases hl : lookupParent parent key with _ | pv
    · rw [hl] at h; exact absurd h (by simp)
    · rw [hl] at h
      obtain ⟨prev, via⟩ := pv
      dsimp only at h
      by_cases hp : prev = origin
      · rw [if_pos hp] at h
        have hvd : via = d := by injection h
        unfold lookupParent at hl
        rcases hf : parent.find? (fun e => e.1 = key) with _ | e
        · rw [hf] at hl; exact absurd hl (by simp)
        · rw [hf] at hl
          have he : e ∈ parent := List.mem_of_find?_eq_some hf
          have : e.2 = (prev, via) := by injection hl
          subst hvd
          intro hdr
          exact hinv e he (by rw [this, hp]) (by rw [this, hdr])
      · rw [if_neg hp] at h
        exact ih prev d h

theorem expandDirs_no_rev (grid : MapGrid) (canUseDoor : Bool)
    (origin tgt : TilePos) (rev : Dir) (cur : TilePos) :
    ∀ (dirs : List Dir) (st : BfsState),
      NoRevAtOrigin origin rev st.parent →
      (∀ st', expandDirs grid canUseDoor origin tgt rev cur dirs st
          = .ok st' → NoRevAtOrigin origin rev st'.parent) ∧
      (∀ d, expandDirs grid canUseDoor origin tgt rev cur dirs st
          = .error (some d) → d ≠ rev) := by
  intro dirs
  induction dirs with
  | nil =>
    intro st hinv
    constructor
    · intro st' h
      have : st = st' := by
        unfold expandDirs at h
        injection h
      rw [← this]; exact hinv
    · intro d h
      exact absurd h (by unfold expandDirs; simp)
  | cons dir rest ih =>
    intro st hinv
    unfold expandDirs
    dsimp only
    split
    · exact ih st hinv
    · split
      · exact ih st hinv
      · split
        · exact ih st hinv
        · split
          · exact ih st hinv
          · next hskip _ _ _ =>
            have hnewinv : NoRevAtOrigin origin rev
                ((stepTile grid cur dir, cur, dir) :: st.parent) := by
              intro e he hpo
              rcases List.mem_cons.mp he with he1 | he2
              · subst he1
                intro hdr
                exact hskip ⟨hpo, hdr⟩
              · exact hinv e he2 hpo
            split
            · constructor
              · intro st' h
                exact absurd h (by simp)
              · intro d h
                have : traceBack ((stepTile grid cur dir, cur, dir)
                    :: st.parent) origin
                    ((stepTile grid cur dir, cur, dir)
                      :: st.parent).length (stepTile grid cur dir)
                    = some d := by injection h
                exact traceBack_no_rev _ _ _ hnewinv _ _ _ this
            · exact ih _ hnewinv

end Pacmoon

namespace Pacmoon

theorem bfsLoop_no_rev (grid : MapGrid) (canUseDoor : Bool)
    (origin tgt : TilePos) (rev : Dir) :
    ∀ (fuel : Nat) (st : BfsState), NoRevAtOrigin origin rev st.parent →
      ∀ d, bfsLoop grid canUseDoor origin tgt rev fuel st = some d →
        d ≠ rev ∨ d = pickBestLocalDir grid origin rev canUseDoor := by
  intro fuel
  induction fuel with
  | zero =>
    intro st _ d h
    exact absurd h (by unfold bfsLoop; simp)
  | succ n ih =>
    intro st hinv d h
    unfold bfsLoop at h
    rcases hq : st.queue with _ | ⟨cur, rest⟩
    · rw [hq] at h
      right
      have : some (pickBestLocalDir grid origin rev canUseDoor) = some d :=
        h
      injection this with h'
      exact h'.symm
    · rw [hq] at h
      dsimp only at h
      rcases hx : expandDirs grid canUseDoor origin tgt rev cur DIR_ORDER
          { st with queue := rest } with r | st'
      · rw [hx] at h
        rcases r with _ | d0
        · exact absurd h (by simp)
        · have : d0 = d := by injection h
          subst this
          exact Or.inl ((expandDirs_no_rev grid canUseDoor origin tgt rev
            cur DIR_ORDER { st with queue := rest } hinv).2 d0 hx)
      · rw [hx] at h
        exact ih st' ((expandDirs_no_rev grid canUseDoor origin tgt rev cur
          DIR_ORDER { st with queue := rest } hinv).1 st' hx) d h

theorem dir_mem_DIR_ORDER (d : Dir) (h : d ≠ .none) : d ∈ DIR_ORDER := by
  cases d
  all_goals first | (exact absurd rfl h) | decide

theorem pickBestLocalDir_no_rev (grid : MapGrid) (f : TilePos) (rev : Dir)
    (canUseDoor : Bool)
    (hex : ∃ dir, dir ≠ Dir.none ∧ dir ≠ rev ∧ stepTile grid f dir ≠ f ∧
      grid.isWalkableForGhost (stepTile grid f dir) canUseDoor = true) :
    pickBestLocalDir grid f rev canUseDoor ≠ rev := by
  obtain ⟨dir, hn, hr, hm, hw⟩ := hex
  unfold pickBestLocalDir
  rcases hf : DIR_ORDER.find? (fun d =>
      d ≠ rev ∧ stepTile grid f d ≠ f ∧
      grid.isWalkableForGhost (stepTile grid f d) canUseDoor) with _ | d0
  · exfalso
    have := List.find?_eq_none.mp hf dir (dir_mem_DIR_ORDER dir hn)
    simp only [decide_eq_true_eq, Bool.and_eq_true, decide_not,
      Bool.not_eq_true'] at this
    exact this ⟨by simp [hr], by simp [hm], hw⟩
  · have hp := List.find?_some hf
    simp only [decide_eq_true_eq, Bool.and_eq_true, decide_not,
      Bool.not_eq_true'] at hp
    intro hc
    dsimp only at hc
    exact (hc ▸ hp.1) rfl

theorem opposite_ne_none (d : Dir) (h : d ≠ .none) : opposite d ≠ .none :=
  by cases d <;> first | (exact absurd rfl h) | decide

/-- C3: whenever the current direction is a real direction and either
some path to the target, or (for the fallback) some walkable moving
neighbor step, exists that does not begin with its reverse, `bfsNextDir`
does not return the reverse; the reverse is excluded only at the origin
(paths may reverse at intermediate tiles and are still found). -/
theorem bfs_never_reverses (grid : MapGrid) (f tgt : TilePos)
    (currentDir : Dir) (canUseDoor : Bool) (hd : currentDir ≠ .none)
    (hex : (∃ p, p ≠ [] ∧
              APath grid canUseDoor (opposite currentDir) f p tgt) ∨
           (∃ dir, dir ≠ Dir.none ∧ dir ≠ opposite currentDir ∧
              stepTile grid f dir ≠ f ∧
              grid.isWalkableForGhost (stepTile grid f dir) canUseDoor
                = true)) :
    bfsNextDir grid f tgt currentDir canUseDoor ≠ opposite currentDir := by
  have hneigh : ∃ dir, dir ≠ Dir.none ∧ dir ≠ opposite currentDir ∧
      stepTile grid f dir ≠ f ∧
      grid.isWalkableForGhost (stepTile grid f dir) canUseDoor = true := by
    rcases hex with ⟨p, hne, hpe⟩ | h
    · rcases p with _ | ⟨d, rest⟩
      · exact absurd rfl hne
      · cases hpe with
        | cons he hrev _ =>
          obtain ⟨hn0, hst, hne', hw⟩ := he
          refine ⟨d, hn0, ?_, by rw [hst]; exact hne',
            by rw [hst]; exact hw⟩
          intro hdr
          exact hrev ⟨rfl, hdr⟩
    · exact h
  have hpb := pickBestLocalDir_no_rev grid f (opposite currentDir)
    canUseDoor hneigh
  unfold bfsNextDir bfsNextDirCore
  dsimp only
  split
  · simpa using hpb
  · rcases hres : bfsLoop grid canUseDoor f tgt (opposite currentDir)
        (bfsFuel grid) { queue := [f], visited := [f], parent := [] }
      with _ | d
    · simpa using Ne.symm (opposite_ne_none currentDir hd)
    · have := bfsLoop_no_rev grid canUseDoor f tgt (opposite currentDir)
        (bfsFuel grid) { queue := [f], visited := [f], parent := [] }
        (by intro e he; exact absurd he (List.not_mem_nil e)) d hres
      rcases this with h1 | h2
      · simpa using h1
      · rw [h2]
        simpa using hpb

/-- An open 5×5 room used by the pathfinder witnesses. -/
def wBfsGrid : MapGrid :=
  { cols := 5, rows := 5,
    tiles := List.replicate 5 (List.replicate 5 Tile.empty),
    pelletsRemaining := 0 }

/-- Witness for `bfs_never_reverses`: moving down with the target
straight up, the pathfinder does not return `up`. -/
theorem bfs_never_reverses_witness :
    bfsNextDir wBfsGrid ⟨1, 2⟩ ⟨1, 0⟩ Dir.down false ≠ Dir.up :=
  bfs_never_reverses wBfsGrid ⟨1, 2⟩ ⟨1, 0⟩ Dir.down false (by decide)
    (Or.inr ⟨Dir.left, by decide, by decide, by decide, by decide⟩)

end Pacmoon

namespace Pacmoon

/-! ## C10: termination of the fuelled BFS

The source's `while` loops terminate because (a) every enqueued tile was
first added to the visited set, whose elements are drawn from the finite
grid (plus the origin), and (b) the parent chain walked by the trace-back
always moves to a strictly earlier entry.  Here these arguments become:
the chosen fuels are sufficient. -/

/-- Every parent entry's predecessor is the origin or has an entry
further down (i.e. added earlier). -/
def ChainOk (origin : TilePos) : List ParentEntry → Prop
  | [] => True
  | e :: rest =>
    (e.2.1 = origin ∨ (lookupParent rest e.2.1).isSome) ∧ ChainOk origin rest

/-- Parent-map keys are pairwise distinct (each tile is claimed once). -/
def UniqKeys (parent : List ParentEntry) : Prop :=
  (parent.map (fun e => e.1)).Nodup

/-- A tile strictly inside the grid rectangle. -/
def InBounds (grid : MapGrid) (p : TilePos) : Prop :=
  0 ≤ p.col ∧ p.col < grid.cols ∧ 0 ≤ p.row ∧ p.row < grid.rows

theorem lookupParent_mono (parent : List ParentEntry) (e : ParentEntry)
    (k : TilePos) (h : (lookupParent parent k).isSome) :
    (lookupParent (e :: parent) k).isSome := by
  by_cases hde : e.1 = k
  · simp [lookupParent, List.find?_cons, hde]
  · simp only [lookupParent, List.find?_cons, hde, decide_False] at h ⊢
    exact h

theorem lookupParent_head (parent : List ParentEntry) (k : TilePos)
    (prev : TilePos) (via : Dir) :
    lookupParent ((k, prev, via) :: parent) k = some (prev, via) := by
  simp [lookupParent, List.find?_cons]

theorem uniq_lookup (parent : List ParentEntry) (h : UniqKeys parent)
    (e : ParentEntry) (he : e ∈ parent) :
    lookupParent parent e.1 = some e.2 := by
  induction parent with
  | nil => exact absurd he (List.not_mem_nil e)
  | cons hd tl ih =>
    rcases List.mem_cons.mp he with he1 | he2
    · subst he1
      exact lookupParent_head tl e.1 e.2.1 e.2.2
    · have hk : hd.1 ≠ e.1 := by
        intro hkeq
        have : e.1 ∈ tl.map (fun x => x.1) := List.mem_map.mpr ⟨e, he2, rfl⟩
        rw [← hkeq] at this
        exact (List.nodup_cons.mp h).1 this
      have : lookupParent (hd :: tl) e.1 = lookupParent tl e.1 := by
        simp [lookupParent, List.find?_cons, hk]
      rw [this]
      exact ih (List.nodup_cons.mp h).2 he2

theorem chainOk_at (origin : TilePos) :
    ∀ (l₁ : List ParentEntry) (e : ParentEntry) (l₂ : List ParentEntry),
      ChainOk origin (l₁ ++ e :: l₂) →
      e.2.1 = origin ∨ (lookupParent l₂ e.2.1).isSome := by
  intro l₁
  induction l₁ with
  | nil => intro e l₂ h; exact h.1
  | cons hd tl ih => intro e l₂ h; exact ih e l₂ h.2

theorem chainOk_suffix (origin : TilePos) :
    ∀ (l₁ l₂ : List ParentEntry), ChainOk origin (l₁ ++ l₂) →
      ChainOk origin l₂ := by
  intro l₁
  induction l₁ with
  | nil => intro l₂ h; exact h
  | cons hd tl ih => intro l₂ h; exact ih l₂ h.2

theorem traceBack_some (origin : TilePos) :
    ∀ (fuel : Nat) (parent suffix : List ParentEntry),
      ChainOk origin parent → UniqKeys parent → suffix.IsSuffix parent →
      suffix.length ≤ fuel → ∀ key, (lookupParent suffix key).isSome →
      (traceBack parent origin fuel key).isSome := by
  intro fuel
  induction fuel with
  | zero =>
    intro parent suffix _ _ _ hlen key hk
    have : suffix = [] := List.eq_nil_of_length_eq_zero (by omega)
    rw [this] at hk
    simp [lookupParent] at hk
  | succ n ih =>
    intro parent suffix hch hu hsfx hlen key hk
    unfold lookupParent at hk
    rcases hf : suffix.find? (fun e => e.1 = key) with _ | e
    · rw [hf] at hk; exact absurd hk (by simp)
    · have hkey : e.1 = key := by
        have := List.find?_some hf
        simpa using this
      have hmem : e ∈ suffix := List.mem_of_find?_eq_some hf
      obtain ⟨l₁, l₂, hsplit⟩ := List.append_of_mem hmem
      obtain ⟨pre, hpre⟩ := hsfx
      have hpsplit : parent = (pre ++ l₁) ++ e :: l₂ := by
        rw [← hpre, hsplit]; simp
      have hlook : lookupParent parent key = some e.2 := by
        rw [← hkey]
        exact uniq_lookup parent hu e (by rw [hpsplit]; simp)
      have hAt := chainOk_at origin (pre ++ l₁) e l₂ (by
        rw [← hpsplit]; exact hch)
      unfold traceBack
      rw [hlook]
      dsimp only
      split
      · simp
      · next hne =>
        rcases hAt with h1 | h2
        · exact absurd h1 hne
        · exact ih parent l₂ hch hu
            ⟨pre ++ l₁ ++ [e], by rw [hpsplit]; simp⟩
            (by
              have : suffix.length = l₁.length + (l₂.length + 1) := by
                rw [hsplit]; simp
              omega)
            e.2.1 h2

end Pacmoon

namespace Pacmoon

theorem stepTile_inBounds (grid : MapGrid) (a : TilePos) (d : Dir)
    (hc : 0 < grid.cols) (hmove : stepTile grid a d ≠ a) :
    InBounds grid (stepTile grid a d) := by
  unfold stepTile at hmove ⊢
  dsimp only at hmove ⊢
  split
  · next hrow => exact absurd rfl (by rw [if_pos hrow] at hmove; exact hmove)
  · next hrow =>
    unfold InBounds
    dsimp only
    refine ⟨?_, ?_, by omega, by omega⟩
    all_goals
      split
      all_goals split
      all_goals omega

/-- A nodup list of tiles that are all the origin or in bounds has at
most `cols·rows + 1` elements. -/
theorem visited_le (grid : MapGrid) (origin : TilePos) (l : List TilePos)
    (hn : l.Nodup) (hb : ∀ v ∈ l, v = origin ∨ InBounds grid v) :
    l.length ≤ grid.cols.toNat * grid.rows.toNat + 1 := by
  classical
  set S : Finset TilePos := Finset.image (fun q => TilePos.mk q.1 q.2)
    ((Finset.range grid.cols.toNat) ×ˢ (Finset.range grid.rows.toNat))
    with hS
  have hsub : l.toFinset ⊆ insert origin S := by
    intro v hv
    rcases hb v (List.mem_toFinset.mp hv) with h1 | h2
    · rw [h1]; exact Finset.mem_insert_self _ _
    · apply Finset.mem_insert_of_mem
      rw [hS]
      apply Finset.mem_image.mpr
      obtain ⟨h1, h2', h3, h4⟩ := h2
      refine ⟨(v.col.toNat, v.row.toNat), ?_, ?_⟩
      · apply Finset.mem_product.mpr
        constructor
        · exact Finset.mem_range.mpr (by omega)
        · exact Finset.mem_range.mpr (by omega)
      · show TilePos.mk (v.col.toNat : Int) (v.row.toNat : Int) = v
        have e1 : (v.col.toNat : Int) = v.col := Int.toNat_of_nonneg h1
        have e2 : (v.row.toNat : Int) = v.row := Int.toNat_of_nonneg h3
        rw [e1, e2]
  have hcard := Finset.card_le_card hsub
  rw [List.toFinset_card_of_nodup hn] at hcard
  have hScard : S.card ≤ grid.cols.toNat * grid.rows.toNat := by
    rw [hS]
    have := @Finset.card_image_le _ _
      ((Finset.range grid.cols.toNat) ×ˢ (Finset.range grid.rows.toNat))
      (fun q => TilePos.mk q.1 q.2) _
    rw [Finset.card_product, Finset.card_range, Finset.card_range] at this
    exact this
  have hins := Finset.card_insert_le origin S
  omega

/-- The invariant bundle the BFS loop maintains (enough for termination
and the reachability arguments). -/
structure LoopInv (grid : MapGrid) (origin : TilePos) (st : BfsState) :
    Prop where
  chain : ChainOk origin st.parent
  uniq : UniqKeys st.parent
  keysVisited : ∀ e ∈ st.parent, e.1 ∈ st.visited
  queueOk : ∀ q ∈ st.queue, q = origin ∨ (lookupParent st.parent q).isSome
  visNodup : st.visited.Nodup
  visBounds : ∀ v ∈ st.visited, v = origin ∨ InBounds grid v

theorem expandDirs_spec (grid : MapGrid) (canUseDoor : Bool)
    (origin tgt : TilePos) (rev : Dir) (cur : TilePos)
    (hc : 0 < grid.cols) :
    ∀ (dirs : List Dir) (st : BfsState), LoopInv grid origin st →
      (cur = origin ∨ (lookupParent st.parent cur).isSome) →
      (∃ d, expandDirs grid canUseDoor origin tgt rev cur dirs st
          = .error (some d)) ∨
      (∃ st' k, expandDirs grid canUseDoor origin tgt rev cur dirs st
          = .ok st' ∧ LoopInv grid origin st' ∧
          st'.visited.length = st.visited.length + k ∧
          st'.queue.length = st.queue.length + k) := by
  intro dirs
  induction dirs with
  | nil =>
    intro st hinv _
    exact Or.inr ⟨st, 0, rfl, hinv, rfl, rfl⟩
  | cons dir rest ih =>
    intro st hinv hcur
    unfold expandDirs
    dsimp only
    split
    · exact ih st hinv hcur
    · split
      · exact ih st hinv hcur
      · split
        · exact ih st hinv hcur
        · split
          · exact ih st hinv hcur
          · next hskip hmove hwalk hvis =>
            have hnotmem : stepTile grid cur dir ∉ st.visited := by
              intro hmem
              exact hvis (by
                simpa using List.elem_eq_true_of_mem hmem)
            have hnewchain : ChainOk origin
                ((stepTile grid cur dir, cur, dir) :: st.parent) :=
              ⟨hcur, hinv.chain⟩
            have hnewuniq : UniqKeys
                ((stepTile grid cur dir, cur, dir) :: st.parent) := by
              apply List.nodup_cons.mpr
              refine ⟨?_, hinv.uniq⟩
              intro hmem
              obtain ⟨e, he, hke⟩ := List.mem_map.mp hmem
              have h1 := hinv.keysVisited e he
              rw [show e.1 = stepTile grid cur dir from hke] at h1
              exact hnotmem h1
            split
            · next heq =>
              subst heq
              left
              have hsm := traceBack_some origin
                ((stepTile grid cur dir, cur, dir) :: st.parent).length
                ((stepTile grid cur dir, cur, dir) :: st.parent)
                ((stepTile grid cur dir, cur, dir) :: st.parent)
                hnewchain hnewuniq (List.suffix_refl _) (le_refl _)
                (stepTile grid cur dir)
                (by rw [lookupParent_head]; simp)
              rcases htb : traceBack
                  ((stepTile grid cur dir, cur, dir) :: st.parent) origin
                  ((stepTile grid cur dir, cur, dir) :: st.parent).length
                  (stepTile grid cur dir) with _ | d0
              · rw [htb] at hsm; simp at hsm
              · exact ⟨d0, rfl⟩
            · next hne =>
              have hnewinv : LoopInv grid origin
                  { queue := st.queue ++ [stepTile grid cur dir],
                    visited := stepTile grid cur dir :: st.visited,
                    parent := (stepTile grid cur dir, cur, dir)
                      :: st.parent } := by
                refine ⟨hnewchain, hnewuniq, ?_, ?_, ?_, ?_⟩
                · intro e he
                  rcases List.mem_cons.mp he with he1 | he2
                  · rw [he1]; exact List.mem_cons_self _ _
                  · exact List.mem_cons_of_mem _ (hinv.keysVisited e he2)
                · intro q hq
                  rcases List.mem_append.mp hq with hq1 | hq2
                  · rcases hinv.queueOk q hq1 with h1 | h2
                    · exact Or.inl h1
                    · exact Or.inr (lookupParent_mono _ _ _ h2)
                  · right
                    have hqe : q = stepTile grid cur dir := by simpa using hq2
                    rw [hqe, lookupParent_head]
                    simp
                · exact List.nodup_cons.mpr ⟨hnotmem, hinv.visNodup⟩
                · intro v hv
                  rcases List.mem_cons.mp hv with hv1 | hv2
                  · right
                    rw [hv1]
                    exact stepTile_inBounds grid cur dir hc hmove
                  · exact hinv.visBounds v hv2
              have hcur2 : cur = origin ∨
                  (lookupParent ((stepTile grid cur dir, cur, dir)
                    :: st.parent) cur).isSome := by
                rcases hcur with h1 | h2
                · exact Or.inl h1
                · exact Or.inr (lookupParent_mono _ _ _ h2)
              rcases ih _ hnewinv hcur2 with
                herr | ⟨st', k, hok, hinv', hv', hq'⟩
              · exact Or.inl herr
              · refine Or.inr ⟨st', k + 1, hok, hinv', ?_, ?_⟩
                · rw [hv']; simp; omega
                · rw [hq']; simp; omega

end Pacmoon

namespace Pacmoon

theorem bfsLoop_some (grid : MapGrid) (canUseDoor : Bool)
    (origin tgt : TilePos) (rev : Dir) (hc : 0 < grid.cols) :
    ∀ (fuel : Nat) (st : BfsState), LoopInv grid origin st →
      5 * (grid.cols.toNat * grid.rows.toNat + 1 - st.visited.length)
        + st.queue.length < fuel →
      ∃ d, bfsLoop grid canUseDoor origin tgt rev fuel st = some d := by
  intro fuel
  induction fuel with
  | zero => intro st _ hm; exact absurd hm (Nat.not_lt_zero _)
  | succ n ih =>
    intro st hinv hm
    unfold bfsLoop
    rcases hq : st.queue with _ | ⟨cur, rest⟩
    · exact ⟨_, rfl⟩
    · dsimp only
      have hinv2 : LoopInv grid origin { st with queue := rest } := by
        refine ⟨hinv.chain, hinv.uniq, hinv.keysVisited, ?_,
          hinv.visNodup, hinv.visBounds⟩
        intro q hq'
        refine hinv.queueOk q ?_
        rw [hq]
        exact List.mem_cons_of_mem _ hq'
      have hcur : cur = origin ∨
          (lookupParent st.parent cur).isSome :=
        hinv.queueOk cur (by rw [hq]; exact List.mem_cons_self _ _)
      rcases expandDirs_spec grid canUseDoor origin tgt rev cur hc
          DIR_ORDER { st with queue := rest } hinv2 hcur with
        ⟨d, herr⟩ | ⟨st', k, hok, hinv', hv', hq'⟩
      · rw [herr]
        exact ⟨d, rfl⟩
      · rw [hok]
        apply ih st' hinv'
        have hb' : st'.visited.length ≤
            grid.cols.toNat * grid.rows.toNat + 1 :=
          visited_le grid origin st'.visited hinv'.visNodup
            hinv'.visBounds
        have hql : st.queue.length = rest.length + 1 := by rw [hq]; rfl
        simp only at hv' hq'
        omega

/-- C10: the BFS of `bfsNextDir` terminates on every input — with the
fuel `bfsFuel` (each loop iteration claims fresh tiles from the finite
grid or shortens the queue, and the trace-back strictly descends the
parent list) the fuelled loops never run out, so `bfsNextDirCore` always
produces a result, which `bfsNextDir` returns; by construction that
result is one of up/down/left/right/none (the type `Dir`). -/
theorem bfsNextDir_terminates (grid : MapGrid) (f tgt : TilePos)
    (currentDir : Dir) (canUseDoor : Bool) (hc : 0 < grid.cols) :
    ∃ d, bfsNextDirCore grid f tgt currentDir canUseDoor = some d ∧
      bfsNextDir grid f tgt currentDir canUseDoor = d := by
  unfold bfsNextDir bfsNextDirCore
  dsimp only
  split
  · exact ⟨_, rfl, rfl⟩
  · have hinit : LoopInv grid f
        { queue := [f], visited := [f], parent := [] } := by
      refine ⟨trivial, List.nodup_nil, ?_, ?_, ?_, ?_⟩
      · intro e he; exact absurd he (List.not_mem_nil e)
      · intro q hq
        exact Or.inl (by simpa using hq)
      · exact List.nodup_singleton f
      · intro v hv
        exact Or.inl (by simpa using hv)
    obtain ⟨d, hd⟩ := bfsLoop_some grid canUseDoor f tgt
      (opposite currentDir) hc (bfsFuel grid)
      { queue := [f], visited := [f], parent := [] } hinit
      (by
        unfold bfsFuel
        simp only [List.length_singleton]
        omega)
    exact ⟨d, hd, by rw [hd]; rfl⟩

/-- Witness for `bfsNextDir_terminates` on a concrete grid with an
unreachable target and an out-of-bounds origin. -/
theorem bfsNextDir_terminates_witness :
    ∃ d, bfsNextDirCore wGrid ⟨-7, 99⟩ ⟨3, 3⟩ Dir.left true = some d ∧
      bfsNextDir wGrid ⟨-7, 99⟩ ⟨3, 3⟩ Dir.left true = d :=
  bfsNextDir_terminates wGrid ⟨-7, 99⟩ ⟨3, 3⟩ Dir.left true (by decide)

end Pacmoon

namespace Pacmoon

/-! ## C2: distance and first-step theory -/

/-- Position of a direction in the fixed expansion order
(`none` ordered last; it never occurs as a path step). -/
def ordD : Dir → Nat
  | .up => 0
  | .left => 1
  | .down => 2
  | .right => 3
  | .none => 4

theorem ordD_inj : ∀ d1 d2 : Dir, d1 ≠ .none → d2 ≠ .none →
    ordD d1 = ordD d2 → d1 = d2 := by
  intro d1 d2 h1 h2 h
  cases d1 <;> cases d2 <;> simp_all [ordD]

/-- `n` is reachable from the origin by an allowed path of length `k`. -/
def ReachN (grid : MapGrid) (canUseDoor : Bool) (f : TilePos) (rev : Dir)
    (n : TilePos) (k : Nat) : Prop :=
  ∃ p, APath grid canUseDoor rev f p n ∧ p.length = k

/-- `k` is the allowed-path distance from the origin to `n`. -/
def IsDist (grid : MapGrid) (canUseDoor : Bool) (f : TilePos) (rev : Dir)
    (n : TilePos) (k : Nat) : Prop :=
  ReachN grid canUseDoor f rev n k ∧
    ∀ j, j < k → ¬ ReachN grid canUseDoor f rev n j

/-- `d` is the earliest (in expansion order) first step of the
length-`k` allowed paths from the origin to `n`. -/
def MinFirst (grid : MapGrid) (canUseDoor : Bool) (f : TilePos)
    (rev : Dir) (n : TilePos) (k : Nat) (d : Dir) : Prop :=
  (∃ p, APath grid canUseDoor rev f p n ∧ p.length = k ∧
    p.head? = some d) ∧
  (∀ p d', APath grid canUseDoor rev f p n → p.length = k →
    p.head? = some d' → ordD d ≤ ordD d')

theorem reachN_zero (grid : MapGrid) (canUseDoor : Bool) (f : TilePos)
    (rev : Dir) (n : TilePos) :
    ReachN grid canUseDoor f rev n 0 ↔ n = f := by
  constructor
  · rintro ⟨p, hp, hl⟩
    have : p = [] := List.eq_nil_of_length_eq_zero hl
    rw [this] at hp
    cases hp
    rfl
  · rintro rfl
    exact ⟨[], GPath.nil _, rfl⟩

theorem isDist_f (grid : MapGrid) (canUseDoor : Bool) (f : TilePos)
    (rev : Dir) : IsDist grid canUseDoor f rev f 0 :=
  ⟨(reachN_zero grid canUseDoor f rev f).mpr rfl, fun j hj => by omega⟩

theorem isDist_unique {grid : MapGrid} {canUseDoor : Bool} {f : TilePos}
    {rev : Dir} {n : TilePos} {a b : Nat}
    (ha : IsDist grid canUseDoor f rev n a)
    (hb : IsDist grid canUseDoor f rev n b) : a = b := by
  by_contra hne
  rcases Nat.lt_or_ge a b with h | h
  · exact hb.2 a h ha.1
  · exact ha.2 b (by omega) hb.1

theorem exists_isDist {grid : MapGrid} {canUseDoor : Bool} {f : TilePos}
    {rev : Dir} {n : TilePos} :
    ∀ {j : Nat}, ReachN grid canUseDoor f rev n j →
      ∃ m, m ≤ j ∧ IsDist grid canUseDoor f rev n m := by
  intro j
  induction j using Nat.strong_induction_on with
  | _ j ih =>
    intro hr
    by_cases hmin : ∀ i, i < j → ¬ ReachN grid canUseDoor f rev n i
    · exact ⟨j, le_refl j, hr, hmin⟩
    · push_neg at hmin
      obtain ⟨i, hi, hri⟩ := hmin
      obtain ⟨m, hm, hdm⟩ := ih i hi hri
      exact ⟨m, by omega, hdm⟩

theorem isDist_zero_iff (grid : MapGrid) (canUseDoor : Bool) (f : TilePos)
    (rev : Dir) (n : TilePos) :
    IsDist grid canUseDoor f rev n 0 ↔ n = f := by
  constructor
  · intro h
    exact (reachN_zero grid canUseDoor f rev n).mp h.1
  · rintro rfl
    exact isDist_f grid canUseDoor _ rev

theorem gpath_decompose_snoc {grid : MapGrid} {canUseDoor : Bool}
    {origin : TilePos} {rev : Dir} :
    ∀ (q0 : List Dir) (dl : Dir) (a c : TilePos),
      GPath grid canUseDoor origin rev a (q0 ++ [dl]) c →
      ∃ b, GPath grid canUseDoor origin rev a q0 b ∧
        edgeStep grid canUseDoor b dl c ∧ ¬(b = origin ∧ dl = rev) := by
  intro q0
  induction q0 with
  | nil =>
    intro dl a c hp
    cases hp with
    | cons he hrev hp' =>
      cases hp'
      exact ⟨a, GPath.nil a, he, hrev⟩
  | cons x q0' ih =>
    intro dl a c hp
    cases hp with
    | cons he hrev hp' =>
      obtain ⟨b, hb, hedge, hrv⟩ := ih dl _ c hp'
      exact ⟨b, GPath.cons he hrev hb, hedge, hrv⟩

theorem list_unsnoc {α : Type} (p : List α) (hne : p ≠ []) :
    ∃ q0 dl, p = q0 ++ [dl] ∧ q0.length = p.length - 1 := by
  refine ⟨p.dropLast, p.getLast hne, ?_, ?_⟩
  · rw [List.dropLast_append_getLast]
  · rw [List.length_dropLast]

theorem head?_append_left {α : Type} (l r : List α) (h : l ≠ []) :
    (l ++ r).head? = l.head? := by
  cases l with
  | nil => exact absurd rfl h
  | cons x xs => rfl

/-- Every shortest path of length `m+1` ends with a step from a node at
distance exactly `m`. -/
theorem pred_of_isDist {grid : MapGrid} {canUseDoor : Bool} {f : TilePos}
    {rev : Dir} {n : TilePos} {m : Nat}
    (hd : IsDist grid canUseDoor f rev n (m + 1)) (q : List Dir)
    (hq : APath grid canUseDoor rev f q n) (hl : q.length = m + 1) :
    ∃ q0 dl pd, q = q0 ++ [dl] ∧ APath grid canUseDoor rev f q0 pd ∧
      q0.length = m ∧ edgeStep grid canUseDoor pd dl n ∧
      ¬(pd = f ∧ dl = rev) ∧ IsDist grid canUseDoor f rev pd m := by
  obtain ⟨q0, dl, hsplit, hlen⟩ := list_unsnoc q (by
    intro h; rw [h] at hl; simp at hl)
  rw [hsplit] at hq
  obtain ⟨pd, hq0, hedge, hrv⟩ := gpath_decompose_snoc q0 dl f n hq
  have hl0 : q0.length = m := by omega
  have hreach : ReachN grid canUseDoor f rev pd m := ⟨q0, hq0, hl0⟩
  obtain ⟨j, hj, hdj⟩ := exists_isDist hreach
  have hjm : j = m := by
    by_contra hne
    have hjlt : j < m := by omega
    obtain ⟨r, hr, hrl⟩ := hdj.1
    have : APath grid canUseDoor rev f (r ++ [dl]) n :=
      GPath.snoc hr hedge hrv
    exact hd.2 (j + 1) (by omega) ⟨r ++ [dl], this, by simp [hrl]⟩
  subst hjm
  exact ⟨q0, dl, pd, hsplit, hq0, hl0, hedge, hrv, hdj⟩

theorem apath_head_ne_none {grid : MapGrid} {canUseDoor : Bool}
    {f : TilePos} {rev : Dir} {n : TilePos} {p : List Dir} {d : Dir}
    (hp : APath grid canUseDoor rev f p n) (hh : p.head? = some d) :
    d ≠ .none := by
  cases hp with
  | nil => simp at hh
  | cons he _ _ =>
    simp at hh
    exact hh ▸ he.1

theorem minFirst_unique {grid : MapGrid} {canUseDoor : Bool} {f : TilePos}
    {rev : Dir} {n : TilePos} {k : Nat} {d1 d2 : Dir}
    (h1 : MinFirst grid canUseDoor f rev n k d1)
    (h2 : MinFirst grid canUseDoor f rev n k d2) : d1 = d2 := by
  obtain ⟨p1, hp1, hl1, hh1⟩ := h1.1
  obtain ⟨p2, hp2, hl2, hh2⟩ := h2.1
  have ha := h1.2 p2 d2 hp2 hl2 hh2
  have hb := h2.2 p1 d1 hp1 hl1 hh1
  exact ordD_inj d1 d2 (apath_head_ne_none hp1 hh1)
    (apath_head_ne_none hp2 hh2) (by omega)

/-! ### The traced first step of a parent map -/

/-- `FS P origin k d`: tracing the parent chain of `k` back to the
origin, the entry whose `prev` is the origin has `via = d` — i.e. the
trace-back would report `d` as the first step towards `k`. -/
inductive FS (P : List ParentEntry) (origin : TilePos) :
    TilePos → Dir → Prop where
  | base {k : TilePos} {via : Dir}
      (h : lookupParent P k = some (origin, via)) : FS P origin k via
  | step {k prev : TilePos} {via d : Dir}
      (h : lookupParent P k = some (prev, via)) (hne : prev ≠ origin)
      (hfs : FS P origin prev d) : FS P origin k d

theorem FS_det {P : List ParentEntry} {origin : TilePos} :
    ∀ {k : TilePos} {d1 d2 : Dir}, FS P origin k d1 → FS P origin k d2 →
      d1 = d2 := by
  intro k d1 d2 h1
  induction h1 with
  | base h =>
    intro h2
    cases h2 with
    | base h' =>
      rw [h] at h'
      simp only [Option.some.injEq, Prod.mk.injEq] at h'
      exact h'.2
    | step h' hne _ =>
      rw [h] at h'
      simp only [Option.some.injEq, Prod.mk.injEq] at h'
      exact absurd h'.1.symm hne
  | step h hne hfs ih =>
    intro h2
    cases h2 with
    | base h' =>
      rw [h] at h'
      simp only [Option.some.injEq, Prod.mk.injEq] at h'
      exact absurd h'.1 hne
    | step h' hne' hfs' =>
      rw [h] at h'
      simp only [Option.some.injEq, Prod.mk.injEq] at h'
      exact ih (by rw [h'.1]; exact hfs')

theorem traceBack_FS {P : List ParentEntry} {origin : TilePos} :
    ∀ {fuel : Nat} {k : TilePos} {d : Dir},
      traceBack P origin fuel k = some d → FS P origin k d := by
  intro fuel
  induction fuel with
  | zero => intro k d h; exact absurd h (by unfold traceBack; simp)
  | succ n ih =>
    intro k d h
    unfold traceBack at h
    rcases hl : lookupParent P k with _ | pv
    · rw [hl] at h; exact absurd h (by simp)
    · rw [hl] at h
      obtain ⟨prev, via⟩ := pv
      dsimp only at h
      by_cases hp : prev = origin
      · rw [if_pos hp] at h
        have : via = d := by injection h
        subst this
        subst hp
        exact FS.base hl
      · rw [if_neg hp] at h
        exact FS.step hl hp (ih h)

theorem lookupParent_mem_key {P : List ParentEntry} {k : TilePos}
    {pv : TilePos × Dir} (h : lookupParent P k = some pv) :
    ∃ e ∈ P, e.1 = k ∧ e.2 = pv := by
  unfold lookupParent at h
  rcases hf : P.find? (fun e => e.1 = k) with _ | e
  · rw [hf] at h; simp at h
  · rw [hf] at h
    have hkey : e.1 = k := by simpa using List.find?_some hf
    have hpv : e.2 = pv := by injection h
    exact ⟨e, List.mem_of_find?_eq_some hf, hkey, hpv⟩

theorem lookupParent_cons_ne {P : List ParentEntry} {e : ParentEntry}
    {k : TilePos} (h : e.1 ≠ k) :
    lookupParent (e :: P) k = lookupParent P k := by
  simp [lookupParent, List.find?_cons, h]

theorem lookupParent_preserved {P : List ParentEntry} {e : ParentEntry}
    {k : TilePos} {pv : TilePos × Dir}
    (h : lookupParent P k = some pv) (hfresh : ∀ x ∈ P, x.1 ≠ e.1) :
    lookupParent (e :: P) k = some pv := by
  rw [lookupParent_cons_ne]
  · exact h
  · obtain ⟨x, hx, hxk, _⟩ := lookupParent_mem_key h
    rw [← hxk]
    exact fun hc => hfresh x hx hc.symm

theorem FS_mono {P : List ParentEntry} {origin : TilePos}
    {e : ParentEntry} (hfresh : ∀ x ∈ P, x.1 ≠ e.1) :
    ∀ {k : TilePos} {d : Dir}, FS P origin k d → FS (e :: P) origin k d
    := by
  intro k d h
  induction h with
  | base hl => exact FS.base (lookupParent_preserved hl hfresh)
  | step hl hne _ ih =>
    exact FS.step (lookupParent_preserved hl hfresh) hne ih

end Pacmoon

namespace Pacmoon

/-! ## C2: the BFS tie-break invariant -/

theorem mem_DIR_ORDER_ne_none : ∀ d ∈ DIR_ORDER, d ≠ Dir.none := by
  decide

/-- If the loop over `DIR_ORDER` has `dir :: restD` still to process, any
unprocessed direction is no earlier in the expansion order than `dir`. -/
theorem dirOrder_suffix_le (done restD : List Dir) (dir dl : Dir)
    (h : done ++ dir :: restD = DIR_ORDER) (hm : dl ∈ dir :: restD) :
    ordD dir ≤ ordD dl := by
  match done with
  | [] =>
    rw [List.nil_append] at h
    rw [h] at hm
    fin_cases hm <;> (rw [show dir = Dir.up from by injection h] <;> decide)
  | [a] =>
    unfold DIR_ORDER at h
    simp only [List.cons_append, List.nil_append, List.cons.injEq] at h
    obtain ⟨-, hdir, hrest⟩ := h
    subst hdir; subst hrest
    fin_cases hm <;> decide
  | [a, b] =>
    unfold DIR_ORDER at h
    simp only [List.cons_append, List.nil_append, List.cons.injEq] at h
    obtain ⟨-, -, hdir, hrest⟩ := h
    subst hdir; subst hrest
    fin_cases hm <;> decide
  | [a, b, c] =>
    unfold DIR_ORDER at h
    simp only [List.cons_append, List.nil_append, List.cons.injEq] at h
    obtain ⟨-, -, -, hdir, hrest⟩ := h
    subst hdir; subst hrest
    fin_cases hm <;> decide
  | a :: b :: c :: e :: tl =>
    exfalso
    have := congrArg List.length h
    simp [DIR_ORDER] at this

/-- Queue order: earlier entries are at most as deep. -/
def DLe (grid : MapGrid) (canUseDoor : Bool) (f : TilePos) (rev : Dir)
    (a b : TilePos) : Prop :=
  ∀ ma mb, IsDist grid canUseDoor f rev a ma →
    IsDist grid canUseDoor f rev b mb → ma ≤ mb

/-- Queue order at equal depth: earlier entries have an
expansion-earlier minimal first step. -/
def OLe (grid : MapGrid) (canUseDoor : Bool) (f : TilePos) (rev : Dir)
    (a b : TilePos) : Prop :=
  ∀ m da db, IsDist grid canUseDoor f rev a m →
    IsDist grid canUseDoor f rev b m →
    MinFirst grid canUseDoor f rev a m da →
    MinFirst grid canUseDoor f rev b m db → ordD da ≤ ordD db

/-- The full invariant the BFS outer loop maintains for the tie-break
argument: every claimed tile's traced first step is the minimal first
step of its shortest allowed paths, expanded tiles have all their
allowed neighbours claimed, and the queue is sorted by (depth, minimal
first step) with at most two consecutive depth levels linked in order. -/
structure Inv2 (grid : MapGrid) (canUseDoor : Bool) (f tgt : TilePos)
    (rev : Dir) (st : BfsState) : Prop where
  base : LoopInv grid f st
  fVis : f ∈ st.visited
  queueVis : ∀ q ∈ st.queue, q ∈ st.visited
  queueNodup : st.queue.Nodup
  tgtNot : tgt ∉ st.visited
  visLab : ∀ v ∈ st.visited, v ≠ f → ∃ dv m, FS st.parent f v dv ∧
    IsDist grid canUseDoor f rev v m ∧
    MinFirst grid canUseDoor f rev v m dv
  closed : ∀ v ∈ st.visited, v ∉ st.queue → ∀ d w,
    edgeStep grid canUseDoor v d w → ¬(v = f ∧ d = rev) → w ∈ st.visited
  sortedD : st.queue.Pairwise (DLe grid canUseDoor f rev)
  sortedOrd : st.queue.Pairwise (OLe grid canUseDoor f rev)
  twoLevel : ∀ a ∈ st.queue, ∀ b ∈ st.queue, ∀ ma mb,
    IsDist grid canUseDoor f rev a ma →
    IsDist grid canUseDoor f rev b mb → mb ≤ ma + 1
  levelLink : ∀ a ∈ st.queue, ∀ b ∈ st.queue, ∀ mb da db,
    IsDist grid canUseDoor f rev a (mb + 1) →
    IsDist grid canUseDoor f rev b mb →
    MinFirst grid canUseDoor f rev a (mb + 1) da →
    MinFirst grid canUseDoor f rev b mb db → ordD da ≤ ordD db
  fQueue : f ∈ st.queue → st.queue = [f]

/-- Completeness: if every queued tile is at depth at least `D`, then
every tile at depth at most `D` has already been claimed. -/
theorem inv2_complete {grid : MapGrid} {canUseDoor : Bool} {f tgt : TilePos}
    {rev : Dir} {st : BfsState}
    (hinv : Inv2 grid canUseDoor f tgt rev st) (D : Nat)
    (hq : ∀ q ∈ st.queue, ∀ mq, IsDist grid canUseDoor f rev q mq →
      D ≤ mq) :
    ∀ m, m ≤ D → ∀ u, IsDist grid canUseDoor f rev u m →
      u ∈ st.visited := by
  intro m
  induction m using Nat.strong_induction_on with
  | _ m ih =>
    intro hmD u hu
    match m, hu, hmD, ih with
    | 0, hu, _, _ =>
      have := (isDist_zero_iff grid canUseDoor f rev u).mp hu
      rw [this]
      exact hinv.fVis
    | j + 1, hu, hmD, ih =>
      obtain ⟨p, hp, hl⟩ := hu.1
      obtain ⟨q0, dl, pd, -, hq0, hl0, hedge, hrv, hpdD⟩ :=
        pred_of_isDist hu p hp hl
      have hpdvis : pd ∈ st.visited := ih j (by omega) (by omega) pd hpdD
      by_cases hpq : pd ∈ st.queue
      · exact absurd (hq pd hpq j hpdD) (by omega)
      · exact hinv.closed pd hpdvis hpq dl u hedge hrv

end Pacmoon

namespace Pacmoon

/-- The invariant holding in the middle of expanding the popped node
`cur` (at depth `D`, with traced/minimal first step `dcur` when it is
not the origin): the directions `done` have been processed,
`dirs` remain, `new` are the tiles claimed so far in this expansion
(appended behind the original remaining queue `rest`), and `visited0`
is the visited set at the moment `cur` was popped. -/
structure Mid (grid : MapGrid) (canUseDoor : Bool) (f tgt : TilePos)
    (rev : Dir) (cur : TilePos) (D : Nat) (dcur : Dir)
    (rest : List TilePos) (visited0 : List TilePos)
    (done dirs : List Dir) (new : List TilePos) (st : BfsState) :
    Prop where
  hsplit : done ++ dirs = DIR_ORDER
  queueEq : st.queue = rest ++ new
  base : LoopInv grid f st
  fVis : f ∈ st.visited
  vis0 : ∀ v ∈ visited0, v ∈ st.visited
  queueVis : ∀ q ∈ st.queue, q ∈ st.visited
  queueNodup : st.queue.Nodup
  tgtNot : tgt ∉ st.visited
  visLab : ∀ v ∈ st.visited, v ≠ f → ∃ dv m, FS st.parent f v dv ∧
    IsDist grid canUseDoor f rev v m ∧
    MinFirst grid canUseDoor f rev v m dv
  closedOld : ∀ v ∈ st.visited, v ∉ st.queue → v ≠ cur → ∀ d w,
    edgeStep grid canUseDoor v d w → ¬(v = f ∧ d = rev) → w ∈ st.visited
  doneClosed : ∀ dc ∈ done, ∀ w, edgeStep grid canUseDoor cur dc w →
    ¬(cur = f ∧ dc = rev) → w ∈ st.visited
  curVis : cur ∈ st.visited
  curNotQ : cur ∉ st.queue
  curOk : cur = f ∨ (lookupParent st.parent cur).isSome
  curFS : cur ≠ f → FS st.parent f cur dcur
  fNotQ : f ∉ st.queue
  sortedD : st.queue.Pairwise (DLe grid canUseDoor f rev)
  sortedOrd : st.queue.Pairwise (OLe grid canUseDoor f rev)
  twoLevel : ∀ a ∈ st.queue, ∀ b ∈ st.queue, ∀ ma mb,
    IsDist grid canUseDoor f rev a ma →
    IsDist grid canUseDoor f rev b mb → mb ≤ ma + 1
  levelLink : ∀ a ∈ st.queue, ∀ b ∈ st.queue, ∀ mb da db,
    IsDist grid canUseDoor f rev a (mb + 1) →
    IsDist grid canUseDoor f rev b mb →
    MinFirst grid canUseDoor f rev a (mb + 1) da →
    MinFirst grid canUseDoor f rev b mb db → ordD da ≤ ordD db
  newFacts : ∀ a ∈ new, IsDist grid canUseDoor f rev a (D + 1) ∧
    ∃ da, MinFirst grid canUseDoor f rev a (D + 1) da ∧
      (cur ≠ f → da = dcur) ∧
      ∀ d' ∈ dirs, ordD da ≤ ordD (if cur = f then d' else dcur)

end Pacmoon

namespace Pacmoon

/-- Claiming a fresh neighbour `nxt` of the popped node `cur` at depth
`D`: `nxt` is at depth exactly `D + 1` and its assigned first step (the
discovery direction when `cur` is the origin, `cur`'s own first step
otherwise) is the minimal first step of its shortest allowed paths. -/
theorem claim_step {grid : MapGrid} {canUseDoor : Bool} {f tgt : TilePos}
    {rev : Dir} {cur : TilePos} {D : Nat} {dcur : Dir}
    {rest visited0 : List TilePos} {done : List Dir} {dir : Dir}
    {restDirs : List Dir} {new : List TilePos} {st : BfsState}
    (hcurd : IsDist grid canUseDoor f rev cur D)
    (hcurMF : cur ≠ f → MinFirst grid canUseDoor f rev cur D dcur)
    (hcomp : ∀ m, m ≤ D → ∀ u, IsDist grid canUseDoor f rev u m →
      u ∈ visited0)
    (hrestOrdGe : ∀ a ∈ rest, ∀ da, IsDist grid canUseDoor f rev a D →
      MinFirst grid canUseDoor f rev a D da → cur ≠ f →
      ordD dcur ≤ ordD da)
    (hmid : Mid grid canUseDoor f tgt rev cur D dcur rest visited0 done
      (dir :: restDirs) new st)
    (hskip : ¬(cur = f ∧ dir = rev))
    (hmove : stepTile grid cur dir ≠ cur)
    (hwalk : grid.isWalkableForGhost (stepTile grid cur dir) canUseDoor
      = true)
    (hfresh : stepTile grid cur dir ∉ st.visited) :
    IsDist grid canUseDoor f rev (stepTile grid cur dir) (D + 1) ∧
    MinFirst grid canUseDoor f rev (stepTile grid cur dir) (D + 1)
      (if cur = f then dir else dcur) := by
  generalize hnq : stepTile grid cur dir = nxt at hmove hwalk hfresh ⊢
  have hdirD : dir ∈ DIR_ORDER := by
    rw [← hmid.hsplit]
    exact List.mem_append_right _ (List.mem_cons_self _ _)
  have hdirne : dir ≠ Dir.none := mem_DIR_ORDER_ne_none dir hdirD
  have hedge : edgeStep grid canUseDoor cur dir nxt :=
    ⟨hdirne, hnq, hmove, hwalk⟩
  have hreach : ReachN grid canUseDoor f rev nxt
      (D + 1) := by
    by_cases hcf : cur = f
    · have hD0 : D = 0 := by
        rw [hcf] at hcurd
        exact isDist_unique hcurd (isDist_f grid canUseDoor f rev)
      refine ⟨[dir], ?_, by simp [hD0]⟩
      rw [hcf] at hedge hskip
      exact GPath.cons hedge hskip (GPath.nil _)
    · obtain ⟨p0, hp0, hl0, hh0⟩ := (hcurMF hcf).1
      exact ⟨p0 ++ [dir], GPath.snoc hp0 hedge hskip, by simp [hl0]⟩
  have hmin : ∀ j, j < D + 1 →
      ¬ ReachN grid canUseDoor f rev nxt j := by
    intro j hj hrj
    obtain ⟨m, hm, hdm⟩ := exists_isDist hrj
    exact hfresh (hmid.vis0 _ (hcomp m (by omega) _ hdm))
  have hdist : IsDist grid canUseDoor f rev nxt
      (D + 1) := ⟨hreach, hmin⟩
  refine ⟨hdist, ?_, ?_⟩
  · -- existence of a shortest path with the assigned head
    by_cases hcf : cur = f
    · have hD0 : D = 0 := by
        rw [hcf] at hcurd
        exact isDist_unique hcurd (isDist_f grid canUseDoor f rev)
      rw [if_pos hcf]
      refine ⟨[dir], ?_, by simp [hD0], rfl⟩
      rw [hcf] at hedge hskip
      exact GPath.cons hedge hskip (GPath.nil _)
    · obtain ⟨p0, hp0, hl0, hh0⟩ := (hcurMF hcf).1
      have hp0ne : p0 ≠ [] := by
        intro h
        rw [h] at hh0
        simp at hh0
      rw [if_neg hcf]
      refine ⟨p0 ++ [dir], GPath.snoc hp0 hedge hskip, by simp [hl0], ?_⟩
      rw [head?_append_left _ _ hp0ne, hh0]
  · -- minimality of the assigned head
    intro p d' hp hl hh
    obtain ⟨q0, dl, pd, hqsplit, hq0, hql, hedge', hrv', hpdD⟩ :=
      pred_of_isDist hdist p hp hl
    by_cases hcf : cur = f
    · rw [if_pos hcf]
      have hq0nil : q0 = [] := by
        have hD0 : D = 0 := by
          rw [hcf] at hcurd
          exact isDist_unique hcurd (isDist_f grid canUseDoor f rev)
        exact List.eq_nil_of_length_eq_zero (by omega)
      rw [hq0nil] at hq0
      have hpdf : pd = f := by cases hq0; rfl
      have hdld' : dl = d' := by
        rw [hqsplit, hq0nil] at hh
        simpa using hh
      rw [← hdld']
      rw [hpdf] at hedge' hrv'
      rw [← hcf] at hedge'
      have hdlD : dl ∈ DIR_ORDER := dir_mem_DIR_ORDER dl hedge'.1
      have hnd : dl ∉ done := by
        intro hdone
        refine hfresh (hmid.doneClosed dl hdone _ hedge' ?_)
        intro hc
        exact hrv' ⟨rfl, hc.2⟩
      have hmem : dl ∈ dir :: restDirs := by
        have h2 : dl ∈ done ++ dir :: restDirs := by
          rw [hmid.hsplit]
          exact hdlD
        rcases List.mem_append.mp h2 with h3 | h3
        · exact absurd h3 hnd
        · exact h3
      exact dirOrder_suffix_le done restDirs dir dl hmid.hsplit hmem
    · rw [if_neg hcf]
      have hD1 : D ≠ 0 := by
        intro h0
        rw [h0] at hcurd
        exact hcf ((isDist_zero_iff grid canUseDoor f rev cur).mp hcurd)
      have hq0ne : q0 ≠ [] := by
        intro h
        rw [h] at hql
        simp at hql
        exact hD1 hql.symm
      have hhq0 : q0.head? = some d' := by
        rw [hqsplit, head?_append_left _ _ hq0ne] at hh
        exact hh
      have hpdvis : pd ∈ st.visited :=
        hmid.vis0 _ (hcomp D (le_refl D) pd hpdD)
      have hpdf : pd ≠ f := by
        intro h
        rw [h] at hpdD
        exact hD1 (isDist_unique hpdD (isDist_f grid canUseDoor f rev))
      obtain ⟨dpd, m, hFSpd, hpdDm, hpdMF⟩ := hmid.visLab pd hpdvis hpdf
      have hmD : m = D := isDist_unique hpdDm hpdD
      subst hmD
      have h1 : ordD dpd ≤ ordD d' := hpdMF.2 q0 d' hq0 hql hhq0
      have h2 : ordD dcur ≤ ordD dpd := by
        by_cases hpc : pd = cur
        · have heq : dpd = dcur :=
            minFirst_unique (by rw [← hpc]; exact hpdMF) (hcurMF hcf)
          rw [heq]
        · by_cases hpq : pd ∈ st.queue
          · rw [hmid.queueEq] at hpq
            rcases List.mem_append.mp hpq with hr | hn
            · exact hrestOrdGe pd hr dpd hpdD hpdMF hcf
            · have hD2 := (hmid.newFacts pd hn).1
              exact absurd (isDist_unique hD2 hpdD) (by omega)
          · exact absurd
              (hmid.closedOld pd hpdvis hpq hpc dl _ hedge' hrv') hfresh
      omega

end Pacmoon

namespace Pacmoon

/-- Skipping a direction (reverse-at-origin, no move, not walkable, or
already claimed): the mid-expansion invariant carries over with the
direction moved into `done`, provided every allowed edge along it
already leads into the visited set. -/
theorem skip_preserve {grid : MapGrid} {canUseDoor : Bool}
    {f tgt : TilePos} {rev : Dir} {cur : TilePos} {D : Nat} {dcur : Dir}
    {rest visited0 : List TilePos} {done : List Dir} {dir : Dir}
    {restDirs : List Dir} {new : List TilePos} {st : BfsState}
    (hmid : Mid grid canUseDoor f tgt rev cur D dcur rest visited0 done
      (dir :: restDirs) new st)
    (hdc : ∀ w, edgeStep grid canUseDoor cur dir w →
      ¬(cur = f ∧ dir = rev) → w ∈ st.visited) :
    Mid grid canUseDoor f tgt rev cur D dcur rest visited0
      (done ++ [dir]) restDirs new st := by
  refine ⟨?_, hmid.queueEq, hmid.base, hmid.fVis, hmid.vis0,
    hmid.queueVis, hmid.queueNodup, hmid.tgtNot, hmid.visLab,
    hmid.closedOld, ?_, hmid.curVis, hmid.curNotQ, hmid.curOk,
    hmid.curFS, hmid.fNotQ, hmid.sortedD, hmid.sortedOrd, hmid.twoLevel,
    hmid.levelLink, ?_⟩
  · rw [List.append_assoc]
    exact hmid.hsplit
  · intro dc hdcm w hw hr
    rcases List.mem_append.mp hdcm with h1 | h2
    · exact hmid.doneClosed dc h1 w hw hr
    · have hde : dc = dir := by simpa using h2
      subst hde
      exact hdc w hw hr
  · intro a ha
    obtain ⟨hd, da, hmf, hcd, hbound⟩ := hmid.newFacts a ha
    exact ⟨hd, da, hmf, hcd,
      fun d' hd' => hbound d' (List.mem_cons_of_mem _ hd')⟩

end Pacmoon

namespace Pacmoon

/-- Claiming a fresh non-target neighbour `nxt` of `cur`: the
mid-expansion invariant carries over to the extended state. -/
theorem claim_preserve {grid : MapGrid} {canUseDoor : Bool}
    {f tgt : TilePos} {rev : Dir} {cur : TilePos} {D : Nat} {dcur : Dir}
    {rest visited0 : List TilePos} {done : List Dir} {dir : Dir}
    {restDirs : List Dir} {new : List TilePos} {st : BfsState}
    {nxt : TilePos} (hc : 0 < grid.cols)
    (hnq : stepTile grid cur dir = nxt)
    (hcurd : IsDist grid canUseDoor f rev cur D)
    (hcurMF : cur ≠ f → MinFirst grid canUseDoor f rev cur D dcur)
    (hcomp : ∀ m, m ≤ D → ∀ u, IsDist grid canUseDoor f rev u m →
      u ∈ visited0)
    (hrestOrdGe : ∀ a ∈ rest, ∀ da, IsDist grid canUseDoor f rev a D →
      MinFirst grid canUseDoor f rev a D da → cur ≠ f →
      ordD dcur ≤ ordD da)
    (hrestLink : ∀ a ∈ rest, ∀ da,
      IsDist grid canUseDoor f rev a (D + 1) →
      MinFirst grid canUseDoor f rev a (D + 1) da → cur ≠ f →
      ordD da ≤ ordD dcur)
    (hrestDistLB : ∀ a ∈ rest, ∀ ma, IsDist grid canUseDoor f rev a ma →
      D ≤ ma ∧ ma ≤ D + 1)
    (hFrest : cur = f → rest = [])
    (hmid : Mid grid canUseDoor f tgt rev cur D dcur rest visited0 done
      (dir :: restDirs) new st)
    (hskip : ¬(cur = f ∧ dir = rev))
    (hmove : nxt ≠ cur)
    (hwalk : grid.isWalkableForGhost nxt canUseDoor = true)
    (hfresh : nxt ∉ st.visited)
    (hntgt : nxt ≠ tgt) :
    Mid grid canUseDoor f tgt rev cur D dcur rest visited0
      (done ++ [dir]) restDirs (new ++ [nxt])
      { queue := st.queue ++ [nxt], visited := nxt :: st.visited,
        parent := (nxt, cur, dir) :: st.parent } := by
  have hcs := claim_step hcurd hcurMF hcomp hrestOrdGe hmid hskip
    (by rw [hnq]; exact hmove) (by rw [hnq]; exact hwalk)
    (by rw [hnq]; exact hfresh)
  rw [hnq] at hcs
  obtain ⟨hnxtD, hnxtMF⟩ := hcs
  have hfreshkeys : ∀ x ∈ st.parent, x.1 ≠ nxt := fun x hx hc' =>
    hfresh (hc' ▸ hmid.base.keysVisited x hx)
  have hFSnxt : FS ((nxt, cur, dir) :: st.parent) f nxt
      (if cur = f then dir else dcur) := by
    by_cases hcf : cur = f
    · rw [if_pos hcf]
      apply FS.base
      rw [← hcf]
      exact lookupParent_head st.parent nxt cur dir
    · rw [if_neg hcf]
      exact FS.step (lookupParent_head st.parent nxt cur dir) hcf
        (FS_mono hfreshkeys (hmid.curFS hcf))
  have hnxtQ : nxt ∉ st.queue := fun h => hfresh (hmid.queueVis nxt h)
  have hbnds : ∀ x ∈ st.queue ++ [nxt], ∀ mx,
      IsDist grid canUseDoor f rev x mx → D ≤ mx ∧ mx ≤ D + 1 := by
    intro x hx mx hmx
    rcases List.mem_append.mp hx with hx1 | hx2
    · rw [hmid.queueEq] at hx1
      rcases List.mem_append.mp hx1 with hr | hn
      · exact hrestDistLB x hr mx hmx
      · have hxD := (hmid.newFacts x hn).1
        have : mx = D + 1 := isDist_unique hmx hxD
        omega
    · have hxe : x = nxt := by simpa using hx2
      rw [hxe] at hmx
      have : mx = D + 1 := isDist_unique hmx hnxtD
      omega
  refine ⟨?_, ?_, ?_, ?_, ?_, ?_, ?_, ?_, ?_, ?_, ?_, ?_, ?_, ?_, ?_,
    ?_, ?_, ?_, ?_, ?_, ?_⟩
  · -- hsplit
    rw [List.append_assoc]
    exact hmid.hsplit
  · -- queueEq
    rw [hmid.queueEq, List.append_assoc]
  · -- base : LoopInv
    have hnewchain : ChainOk f ((nxt, cur, dir) :: st.parent) :=
      ⟨hmid.curOk, hmid.base.chain⟩
    have hnewuniq : UniqKeys ((nxt, cur, dir) :: st.parent) := by
      apply List.nodup_cons.mpr
      refine ⟨?_, hmid.base.uniq⟩
      intro hmem
      obtain ⟨e, he, hke⟩ := List.mem_map.mp hmem
      exact hfreshkeys e he hke
    refine ⟨hnewchain, hnewuniq, ?_, ?_, ?_, ?_⟩
    · intro e he
      rcases List.mem_cons.mp he with he1 | he2
      · rw [he1]
        exact List.mem_cons_self _ _
      · exact List.mem_cons_of_mem _ (hmid.base.keysVisited e he2)
    · intro q hq
      rcases List.mem_append.mp hq with hq1 | hq2
      · rcases hmid.base.queueOk q hq1 with h1 | h2
        · exact Or.inl h1
        · exact Or.inr (lookupParent_mono _ _ _ h2)
      · right
        have hqe : q = nxt := by simpa using hq2
        rw [hqe, lookupParent_head]
        simp
    · exact List.nodup_cons.mpr ⟨hfresh, hmid.base.visNodup⟩
    · intro v hv
      rcases List.mem_cons.mp hv with hv1 | hv2
      · right
        rw [hv1, ← hnq]
        exact stepTile_inBounds grid cur dir hc (by rw [hnq]; exact hmove)
      · exact hmid.base.visBounds v hv2
  · -- fVis
    exact List.mem_cons_of_mem _ hmid.fVis
  · -- vis0
    exact fun v hv => List.mem_cons_of_mem _ (hmid.vis0 v hv)
  · -- queueVis
    intro q hq
    rcases List.mem_append.mp hq with hq1 | hq2
    · exact List.mem_cons_of_mem _ (hmid.queueVis q hq1)
    · have hqe : q = nxt := by simpa using hq2
      rw [hqe]
      exact List.mem_cons_self _ _
  · -- queueNodup
    rw [List.nodup_append]
    refine ⟨hmid.queueNodup, List.nodup_singleton _, ?_⟩
    intro a ha hb
    have : a = nxt := by simpa using hb
    rw [this] at ha
    exact hnxtQ ha
  · -- tgtNot
    intro hmem
    rcases List.mem_cons.mp hmem with h1 | h2
    · exact hntgt h1.symm
    · exact hmid.tgtNot h2
  · -- visLab
    intro v hv hvf
    rcases List.mem_cons.mp hv with hv1 | hv2
    · subst hv1
      exact ⟨if cur = f then dir else dcur, D + 1, hFSnxt, hnxtD, hnxtMF⟩
    · obtain ⟨dv, m, hfs, hd, hmf⟩ := hmid.visLab v hv2 hvf
      exact ⟨dv, m, FS_mono hfreshkeys hfs, hd, hmf⟩
  · -- closedOld
    intro v hv hvq hvc d w hw hr
    have hvnx : v ≠ nxt := by
      intro he
      exact hvq (by
        rw [he]
        exact List.mem_append_right _ (List.mem_cons_self _ _))
    have hv2 : v ∈ st.visited := by
      rcases List.mem_cons.mp hv with h1 | h2
      · exact absurd h1 hvnx
      · exact h2
    have hvq2 : v ∉ st.queue := fun h =>
      hvq (List.mem_append_left _ h)
    exact List.mem_cons_of_mem _
      (hmid.closedOld v hv2 hvq2 hvc d w hw hr)
  · -- doneClosed
    intro dc hdcm w hw hr
    rcases List.mem_append.mp hdcm with h1 | h2
    · exact List.mem_cons_of_mem _ (hmid.doneClosed dc h1 w hw hr)
    · have hde : dc = dir := by simpa using h2
      subst hde
      have hwn : w = nxt := by rw [← hw.2.1, hnq]
      rw [hwn]
      exact List.mem_cons_self _ _
  · -- curVis
    exact List.mem_cons_of_mem _ hmid.curVis
  · -- curNotQ
    intro hmem
    rcases List.mem_append.mp hmem with h1 | h2
    · exact hmid.curNotQ h1
    · have hce : cur = nxt := by simpa using h2
      exact hmove hce.symm
  · -- curOk
    rcases hmid.curOk with h1 | h2
    · exact Or.inl h1
    · exact Or.inr (lookupParent_mono _ _ _ h2)
  · -- curFS
    exact fun hcf => FS_mono hfreshkeys (hmid.curFS hcf)
  · -- fNotQ
    intro hmem
    rcases List.mem_append.mp hmem with h1 | h2
    · exact hmid.fNotQ h1
    · have : f = nxt := by simpa using h2
      exact hfresh (this ▸ hmid.fVis)
  · -- sortedD
    rw [List.pairwise_append]
    refine ⟨hmid.sortedD, List.pairwise_singleton _ _, ?_⟩
    intro a ha b hb
    have hbe : b = nxt := by simpa using hb
    subst hbe
    intro ma mb hma hmb
    have hmb' : mb = D + 1 := isDist_unique hmb hnxtD
    have := (hbnds a (List.mem_append_left _ ha) ma hma).2
    omega
  · -- sortedOrd
    rw [List.pairwise_append]
    refine ⟨hmid.sortedOrd, List.pairwise_singleton _ _, ?_⟩
    intro a ha b hb
    have hbe : b = nxt := by simpa using hb
    subst hbe
    intro m da db hma hmb hda hdb
    have hm' : m = D + 1 := isDist_unique hmb hnxtD
    subst hm'
    have hdb' : db = if cur = f then dir else dcur :=
      minFirst_unique hdb hnxtMF
    rw [hdb']
    rw [hmid.queueEq] at ha
    rcases List.mem_append.mp ha with hr | hn
    · by_cases hcf : cur = f
      · rw [hFrest hcf] at hr
        exact absurd hr (List.not_mem_nil a)
      · rw [if_neg hcf]
        exact hrestLink a hr da hma hda hcf
    · obtain ⟨haD, da0, hmf0, hcd0, hb0⟩ := hmid.newFacts a hn
      have hda' : da = da0 := minFirst_unique hda hmf0
      rw [hda']
      exact hb0 dir (List.mem_cons_self _ _)
  · -- twoLevel
    intro a ha b hb ma mb hma hmb
    have h1 := (hbnds a ha ma hma).1
    have h2 := (hbnds b hb mb hmb).2
    omega
  · -- levelLink
    intro a ha b hb mb da db hma hmb hda hdb
    have hbD : mb = D := by
      have h1 := (hbnds a ha (mb + 1) hma).2
      have h2 := (hbnds b hb mb hmb).1
      omega
    rw [hbD] at hma hmb hda hdb
    have hbq : b ∈ rest := by
      rcases List.mem_append.mp hb with h1 | h2
      · rw [hmid.queueEq] at h1
        rcases List.mem_append.mp h1 with hr | hn
        · exact hr
        · have := (hmid.newFacts b hn).1
          exact absurd (isDist_unique hmb this) (by omega)
      · have hbe : b = nxt := by simpa using h2
        rw [hbe] at hmb
        exact absurd (isDist_unique hmb hnxtD) (by omega)
    have hcf : cur ≠ f := by
      intro hcf
      rw [hFrest hcf] at hbq
      exact absurd hbq (List.not_mem_nil b)
    rcases List.mem_append.mp ha with h1 | h2
    · exact hmid.levelLink a h1 b
        (by rw [hmid.queueEq]; exact List.mem_append_left _ hbq)
        D da db hma hmb hda hdb
    · have hae : a = nxt := by simpa using h2
      rw [hae] at hda
      have hda' : da = if cur = f then dir else dcur :=
        minFirst_unique hda hnxtMF
      rw [hda', if_neg hcf]
      exact hrestOrdGe b hbq db hmb hdb hcf
  · -- newFacts
    intro a ha
    rcases List.mem_append.mp ha with h1 | h2
    · obtain ⟨hd, da, hmf, hcd, hbound⟩ := hmid.newFacts a h1
      exact ⟨hd, da, hmf, hcd,
        fun d' hd' => hbound d' (List.mem_cons_of_mem _ hd')⟩
    · have hae : a = nxt := by simpa using h2
      subst hae
      refine ⟨hnxtD, if cur = f then dir else dcur, hnxtMF,
        fun hcf => if_neg hcf, ?_⟩
      intro d' hd'
      by_cases hcf : cur = f
      · rw [if_pos hcf, if_pos hcf]
        exact dirOrder_suffix_le done restDirs dir d' hmid.hsplit
          (List.mem_cons_of_mem _ hd')
      · rw [if_neg hcf, if_neg hcf]

end Pacmoon

namespace Pacmoon

/-- The freshly inserted parent entry traces back to the first step
assigned to the new tile. -/
theorem FS_new_entry {P : List ParentEntry} {f cur nxt : TilePos}
    {dir dcur : Dir} (hfreshkeys : ∀ x ∈ P, x.1 ≠ nxt)
    (hcurFS : cur ≠ f → FS P f cur dcur) :
    FS ((nxt, cur, dir) :: P) f nxt (if cur = f then dir else dcur) := by
  by_cases hcf : cur = f
  · rw [if_pos hcf]
    apply FS.base
    rw [← hcf]
    exact lookupParent_head P nxt cur dir
  · rw [if_neg hcf]
    exact FS.step (lookupParent_head P nxt cur dir) hcf
      (FS_mono hfreshkeys (hcurFS hcf))

/-- Master lemma for the inner direction loop: from any mid-expansion
state it either finishes with the invariant re-established (all
directions processed) or claims the target and returns the minimal
first step of the target's shortest allowed paths. -/
theorem expandDirs_master {grid : MapGrid} {canUseDoor : Bool}
    {f tgt : TilePos} {rev : Dir} {cur : TilePos} {D : Nat} {dcur : Dir}
    {rest visited0 : List TilePos} (hc : 0 < grid.cols)
    (hcurd : IsDist grid canUseDoor f rev cur D)
    (hcurMF : cur ≠ f → MinFirst grid canUseDoor f rev cur D dcur)
    (hcomp : ∀ m, m ≤ D → ∀ u, IsDist grid canUseDoor f rev u m →
      u ∈ visited0)
    (hrestOrdGe : ∀ a ∈ rest, ∀ da, IsDist grid canUseDoor f rev a D →
      MinFirst grid canUseDoor f rev a D da → cur ≠ f →
      ordD dcur ≤ ordD da)
    (hrestLink : ∀ a ∈ rest, ∀ da,
      IsDist grid canUseDoor f rev a (D + 1) →
      MinFirst grid canUseDoor f rev a (D + 1) da → cur ≠ f →
      ordD da ≤ ordD dcur)
    (hrestDistLB : ∀ a ∈ rest, ∀ ma, IsDist grid canUseDoor f rev a ma →
      D ≤ ma ∧ ma ≤ D + 1)
    (hFrest : cur = f → rest = []) :
    ∀ (dirs : List Dir), ∀ (done : List Dir) (new : List TilePos)
      (st : BfsState),
      Mid grid canUseDoor f tgt rev cur D dcur rest visited0 done dirs
        new st →
      (∃ st' new', expandDirs grid canUseDoor f tgt rev cur dirs st
          = .ok st' ∧
        Mid grid canUseDoor f tgt rev cur D dcur rest visited0 DIR_ORDER
          [] new' st') ∨
      (∃ dtb, expandDirs grid canUseDoor f tgt rev cur dirs st
          = .error (some dtb) ∧
        IsDist grid canUseDoor f rev tgt (D + 1) ∧
        MinFirst grid canUseDoor f rev tgt (D + 1) dtb) := by
  intro dirs
  induction dirs with
  | nil =>
    intro done new st hmid
    have hdone : done = DIR_ORDER := by simpa using hmid.hsplit
    exact Or.inl ⟨st, new, rfl, hdone ▸ hmid⟩
  | cons dir restDirs ih =>
    intro done new st hmid
    unfold expandDirs
    dsimp only
    split
    · next hcond =>
      refine ih (done ++ [dir]) new st (skip_preserve hmid ?_)
      intro w hw hr
      exact absurd hcond hr
    · split
      · next heq =>
        refine ih (done ++ [dir]) new st (skip_preserve hmid ?_)
        intro w hw hr
        have hwc : w = cur := by rw [← hw.2.1]; exact heq
        exact absurd hwc hw.2.2.1
      · split
        · next hnw =>
          refine ih (done ++ [dir]) new st (skip_preserve hmid ?_)
          intro w hw hr
          exfalso
          apply hnw
          have : grid.isWalkableForGhost (stepTile grid cur dir)
              canUseDoor = true := by
            rw [hw.2.1]
            exact hw.2.2.2
          exact this
        · split
          · next hvism =>
            refine ih (done ++ [dir]) new st (skip_preserve hmid ?_)
            intro w hw hr
            rw [← hw.2.1]
            simpa using hvism
          · next hskip hmove hwalk hvis =>
            have hfresh : stepTile grid cur dir ∉ st.visited := by
              intro hmem
              exact hvis (by simpa using List.elem_eq_true_of_mem hmem)
            have hfreshkeys : ∀ x ∈ st.parent,
                x.1 ≠ stepTile grid cur dir := fun x hx hc' =>
              hfresh (hc' ▸ hmid.base.keysVisited x hx)
            have hcs := claim_step hcurd hcurMF hcomp hrestOrdGe hmid
              hskip hmove (not_not.mp hwalk) hfresh
            split
            · next heq =>
              -- the target is claimed: trace back and return
              right
              have hnewchain : ChainOk f
                  ((stepTile grid cur dir, cur, dir) :: st.parent) :=
                ⟨hmid.curOk, hmid.base.chain⟩
              have hnewuniq : UniqKeys
                  ((stepTile grid cur dir, cur, dir) :: st.parent) := by
                apply List.nodup_cons.mpr
                refine ⟨?_, hmid.base.uniq⟩
                intro hmem
                obtain ⟨e, he, hke⟩ := List.mem_map.mp hmem
                exact hfreshkeys e he hke
              have hsm := traceBack_some f
                ((stepTile grid cur dir, cur, dir) :: st.parent).length
                ((stepTile grid cur dir, cur, dir) :: st.parent)
                ((stepTile grid cur dir, cur, dir) :: st.parent)
                hnewchain hnewuniq (List.suffix_refl _) (le_refl _)
                (stepTile grid cur dir)
                (by rw [lookupParent_head]; simp)
              rcases htb : traceBack
                  ((stepTile grid cur dir, cur, dir) :: st.parent) f
                  ((stepTile grid cur dir, cur, dir) :: st.parent).length
                  (stepTile grid cur dir) with _ | d0
              · rw [htb] at hsm
                simp at hsm
              · have hFSn := @FS_new_entry st.parent f cur
                  (stepTile grid cur dir) dir dcur hfreshkeys hmid.curFS
                have hd0 : d0 = if cur = f then dir else dcur :=
                  FS_det (traceBack_FS htb) hFSn
                refine ⟨d0, rfl, ?_, ?_⟩
                · rw [← heq]
                  exact hcs.1
                · rw [← heq, hd0]
                  exact hcs.2
            · next hneq =>
              exact ih (done ++ [dir])
                (new ++ [stepTile grid cur dir]) _
                (claim_preserve hc rfl hcurd hcurMF hcomp hrestOrdGe
                  hrestLink hrestDistLB hFrest hmid hskip hmove
                  (not_not.mp hwalk) hfresh hneq)

end Pacmoon

namespace Pacmoon

/-- The outer BFS loop, run from any state satisfying the tie-break
invariant, can only return the minimal first step of the target's
shortest allowed paths (when the target has a distance at all). -/
theorem bfsLoop_tiebreak {grid : MapGrid} {canUseDoor : Bool}
    {f tgt : TilePos} {rev : Dir} (hc : 0 < grid.cols) {k : Nat} {d : Dir}
    (htgtD : IsDist grid canUseDoor f rev tgt k)
    (htgtMF : MinFirst grid canUseDoor f rev tgt k d) :
    ∀ (fuel : Nat) (st : BfsState),
      Inv2 grid canUseDoor f tgt rev st →
      ∀ dres, bfsLoop grid canUseDoor f tgt rev fuel st = some dres →
      dres = d := by
  intro fuel
  induction fuel with
  | zero =>
    intro st _ dres h
    exact absurd h (by unfold bfsLoop; simp)
  | succ n ih =>
    intro st hinv dres h
    unfold bfsLoop at h
    rcases hq : st.queue with _ | ⟨cur, rest⟩
    · exfalso
      have hcomp := inv2_complete hinv k (by
        rw [hq]
        intro q hq'
        exact absurd hq' (List.not_mem_nil q))
      exact hinv.tgtNot (hcomp k (le_refl k) tgt htgtD)
    · rw [hq] at h
      dsimp only at h
      have hcurq : cur ∈ st.queue := by
        rw [hq]
        exact List.mem_cons_self _ _
      have hcurvis : cur ∈ st.visited := hinv.queueVis cur hcurq
      have hpack : ∃ Dv dcurv, IsDist grid canUseDoor f rev cur Dv ∧
          (cur ≠ f → MinFirst grid canUseDoor f rev cur Dv dcurv) ∧
          (cur ≠ f → FS st.parent f cur dcurv) := by
        by_cases hcf : cur = f
        · exact ⟨0, Dir.none, by rw [hcf]; exact isDist_f _ _ _ _,
            fun hco => absurd hcf hco, fun hco => absurd hcf hco⟩
        · obtain ⟨dv, m, hfs, hdm, hmf⟩ := hinv.visLab cur hcurvis hcf
          exact ⟨m, dv, hdm, fun _ => hmf, fun _ => hfs⟩
      obtain ⟨D, dcur, hcurd, hcurMF, hcurFS⟩ := hpack
      have hsd := hinv.sortedD
      have hso := hinv.sortedOrd
      rw [hq] at hsd hso
      have hqge : ∀ q ∈ st.queue, ∀ mq,
          IsDist grid canUseDoor f rev q mq → D ≤ mq := by
        intro q hqm mq hmq
        rw [hq] at hqm
        rcases List.mem_cons.mp hqm with h1 | h2
        · rw [h1] at hmq
          exact le_of_eq (isDist_unique hcurd hmq)
        · exact (List.pairwise_cons.mp hsd).1 q h2 D mq hcurd hmq
      have hcomp := inv2_complete hinv D hqge
      have hrestOrdGe : ∀ a ∈ rest, ∀ da,
          IsDist grid canUseDoor f rev a D →
          MinFirst grid canUseDoor f rev a D da → cur ≠ f →
          ordD dcur ≤ ordD da := by
        intro a ha da haD haMF hcf
        exact (List.pairwise_cons.mp hso).1 a ha D dcur da hcurd haD
          (hcurMF hcf) haMF
      have hrestLink : ∀ a ∈ rest, ∀ da,
          IsDist grid canUseDoor f rev a (D + 1) →
          MinFirst grid canUseDoor f rev a (D + 1) da → cur ≠ f →
          ordD da ≤ ordD dcur := by
        intro a ha da haD haMF hcf
        exact hinv.levelLink a (by rw [hq]; exact List.mem_cons_of_mem _ ha)
          cur hcurq D da dcur haD hcurd haMF (hcurMF hcf)
      have hrestDistLB : ∀ a ∈ rest, ∀ ma,
          IsDist grid canUseDoor f rev a ma → D ≤ ma ∧ ma ≤ D + 1 := by
        intro a ha ma hma
        constructor
        · exact (List.pairwise_cons.mp hsd).1 a ha D ma hcurd hma
        · exact hinv.twoLevel cur hcurq a
            (by rw [hq]; exact List.mem_cons_of_mem _ ha) D ma hcurd hma
      have hFrest : cur = f → rest = [] := by
        intro hcf
        have hfq : st.queue = [f] := hinv.fQueue (by
          rw [hq, ← hcf]
          exact List.mem_cons_self _ _)
        rw [hq, ← hcf] at hfq
        injection hfq with h1 h2
      have hfnr : f ∉ rest := by
        by_cases hcf : cur = f
        · rw [hFrest hcf]
          exact List.not_mem_nil f
        · intro hmem
          have hfq : st.queue = [f] := hinv.fQueue (by
            rw [hq]
            exact List.mem_cons_of_mem _ hmem)
          rw [hq] at hfq
          injection hfq with h1 h2
          exact hcf h1
      have hcnr : cur ∉ rest := by
        have hqn := hinv.queueNodup
        rw [hq] at hqn
        exact (List.nodup_cons.mp hqn).1
      have hmidinit : Mid grid canUseDoor f tgt rev cur D dcur rest
          st.visited [] DIR_ORDER [] { st with queue := rest } := by
        refine ⟨rfl, (List.append_nil rest).symm, ?_, hinv.fVis,
          fun v hv => hv, ?_, ?_, hinv.tgtNot, hinv.visLab, ?_, ?_,
          hcurvis, hcnr, ?_, hcurFS, hfnr, ?_, ?_, ?_, ?_, ?_⟩
        · refine ⟨hinv.base.chain, hinv.base.uniq,
            hinv.base.keysVisited, ?_, hinv.base.visNodup,
            hinv.base.visBounds⟩
          intro q hq'
          exact hinv.base.queueOk q (by
            rw [hq]
            exact List.mem_cons_of_mem _ hq')
        · intro q hq'
          exact hinv.queueVis q (by
            rw [hq]
            exact List.mem_cons_of_mem _ hq')
        · have hqn := hinv.queueNodup
          rw [hq] at hqn
          exact (List.nodup_cons.mp hqn).2
        · intro v hv hvq hvc dd w hw hr
          refine hinv.closed v hv ?_ dd w hw hr
          rw [hq]
          intro hmem
          rcases List.mem_cons.mp hmem with h1 | h2
          · exact hvc h1
          · exact hvq h2
        · intro dc hdc
          exact absurd hdc (List.not_mem_nil dc)
        · exact hinv.base.queueOk cur hcurq
        · exact (List.pairwise_cons.mp hsd).2
        · exact (List.pairwise_cons.mp hso).2
        · intro a ha b hb ma mb hma hmb
          exact hinv.twoLevel a (by rw [hq]; exact List.mem_cons_of_mem _ ha)
            b (by rw [hq]; exact List.mem_cons_of_mem _ hb) ma mb hma hmb
        · intro a ha b hb mb da db hma hmb hda hdb
          exact hinv.levelLink a
            (by rw [hq]; exact List.mem_cons_of_mem _ ha) b
            (by rw [hq]; exact List.mem_cons_of_mem _ hb) mb da db hma
            hmb hda hdb
        · intro a ha
          exact absurd ha (List.not_mem_nil a)
      rcases expandDirs_master hc hcurd hcurMF hcomp hrestOrdGe hrestLink
          hrestDistLB hFrest DIR_ORDER [] [] { st with queue := rest }
          hmidinit with
        ⟨st', new', hok, hmidfin⟩ | ⟨dtb, herr, htD, htMF⟩
      · rw [hok] at h
        have hinv' : Inv2 grid canUseDoor f tgt rev st' := by
          refine ⟨hmidfin.base, hmidfin.fVis, hmidfin.queueVis,
            hmidfin.queueNodup, hmidfin.tgtNot, hmidfin.visLab, ?_,
            hmidfin.sortedD, hmidfin.sortedOrd, hmidfin.twoLevel,
            hmidfin.levelLink, ?_⟩
          · intro v hv hvq dd w hw hr
            by_cases hvc : v = cur
            · rw [hvc] at hw hr
              exact hmidfin.doneClosed dd (dir_mem_DIR_ORDER dd hw.1)
                w hw hr
            · exact hmidfin.closedOld v hv hvq hvc dd w hw hr
          · intro hmem
            exact absurd hmem hmidfin.fNotQ
        exact ih st' hinv' dres h
      · rw [herr] at h
        have hde : dtb = dres := by injection h
        rw [← hde]
        have hk : D + 1 = k := isDist_unique htD htgtD
        rw [hk] at htMF
        exact minFirst_unique htMF htgtMF

end Pacmoon

namespace Pacmoon

/-- C2 (amended): for every grid (with positive width), origin, target
and current direction, whenever shortest equal-length paths from origin
to target exist **among the paths the search admits** — paths that never
take the reverse of the current direction as the step out of the origin
tile — `bfsNextDir` returns the first step of the admitted path whose
first step occurs earliest in the fixed expansion order
up, left, down, right.  (For unrestricted paths the property fails; see
the counterexample.)  Stated via `IsDist` (the target is at allowed-path
distance `k`) and `MinFirst` (`d` is the expansion-earliest first step
over the allowed paths of length `k` to the target). -/
theorem bfs_tiebreak_order (grid : MapGrid) (f tgt : TilePos)
    (currentDir : Dir) (canUseDoor : Bool) (hc : 0 < grid.cols)
    (k : Nat) (d : Dir)
    (hdist : IsDist grid canUseDoor f (opposite currentDir) tgt k)
    (hmin : MinFirst grid canUseDoor f (opposite currentDir) tgt k d) :
    bfsNextDir grid f tgt currentDir canUseDoor = d := by
  have hk0 : k ≠ 0 := by
    intro h0
    obtain ⟨p, hp, hl, hh⟩ := hmin.1
    rw [h0] at hl
    have hpn : p = [] := List.eq_nil_of_length_eq_zero hl
    rw [hpn] at hh
    simp at hh
  have htf : tgt ≠ f := by
    intro he
    rw [he] at hdist
    exact hk0 (isDist_unique hdist
      (isDist_f grid canUseDoor f (opposite currentDir)))
  unfold bfsNextDir bfsNextDirCore
  dsimp only
  split
  · next hcond =>
    exfalso
    apply htf
    obtain ⟨h1, h2⟩ := hcond
    cases tgt
    cases f
    simp only [TilePos.mk.injEq]
    exact ⟨h1.symm, h2.symm⟩
  · have hinit : Inv2 grid canUseDoor f tgt (opposite currentDir)
        { queue := [f], visited := [f], parent := [] } := by
      refine ⟨?_, ?_, ?_, ?_, ?_, ?_, ?_, ?_, ?_, ?_, ?_, ?_⟩
      · refine ⟨trivial, List.nodup_nil, ?_, ?_, ?_, ?_⟩
        · intro e he
          exact absurd he (List.not_mem_nil e)
        · intro q hqm
          exact Or.inl (by simpa using hqm)
        · exact List.nodup_singleton f
        · intro v hv
          exact Or.inl (by simpa using hv)
      · exact List.mem_cons_self f []
      · exact fun q hqm => hqm
      · exact List.nodup_singleton f
      · intro hmem
        exact htf (by simpa using hmem)
      · intro v hv hvf
        exact absurd (by simpa using hv) hvf
      · intro v hv hvq dd w hw hr
        exact absurd hv hvq
      · exact List.pairwise_singleton _ _
      · exact List.pairwise_singleton _ _
      · intro a ha b hb ma mb hma hmb
        have hb' : b = f := by simpa using hb
        rw [hb'] at hmb
        have : mb = 0 := isDist_unique hmb
          (isDist_f grid canUseDoor f (opposite currentDir))
        omega
      · intro a ha b hb mb da db hma hmb hda hdb
        have ha' : a = f := by simpa using ha
        rw [ha'] at hma
        have : mb + 1 = 0 := isDist_unique hma
          (isDist_f grid canUseDoor f (opposite currentDir))
        omega
      · intro hmem
        rfl
    rcases hloop : bfsLoop grid canUseDoor f tgt (opposite currentDir)
        (bfsFuel grid) { queue := [f], visited := [f], parent := [] }
      with _ | dres
    · exfalso
      obtain ⟨d0, hd0⟩ := bfsLoop_some grid canUseDoor f tgt
        (opposite currentDir) hc (bfsFuel grid)
        { queue := [f], visited := [f], parent := [] } hinit.base
        (by
          unfold bfsFuel
          simp only [List.length_singleton]
          omega)
      rw [hloop] at hd0
      simp at hd0
    · have hde := bfsLoop_tiebreak hc hdist hmin (bfsFuel grid)
        { queue := [f], visited := [f], parent := [] } hinit dres hloop
      rw [hde]
      rfl

end Pacmoon

namespace Pacmoon

/-- Witness for `bfs_tiebreak_order`: in the open 5×5 room, with the
target one tile straight up and no current direction, the unique
shortest allowed path is `[up]` and the search returns `up`. -/
theorem bfs_tiebreak_order_witness :
    bfsNextDir wBfsGrid ⟨2, 2⟩ ⟨2, 1⟩ Dir.none false = Dir.up := by
  have hpath : APath wBfsGrid false (opposite Dir.none) ⟨2, 2⟩
      [Dir.up] ⟨2, 1⟩ :=
    GPath.cons ⟨by decide, by decide, by decide, by decide⟩ (by decide)
      (GPath.nil _)
  have hdist : IsDist wBfsGrid false ⟨2, 2⟩ (opposite Dir.none)
      ⟨2, 1⟩ 1 := by
    constructor
    · exact ⟨[Dir.up], hpath, rfl⟩
    · intro j hj hr
      have hj0 : j = 0 := by omega
      rw [hj0] at hr
      have hr2 := (reachN_zero wBfsGrid false ⟨2, 2⟩ (opposite Dir.none)
        ⟨2, 1⟩).mp hr
      exact absurd hr2 (by decide)
  have hmin : MinFirst wBfsGrid false ⟨2, 2⟩ (opposite Dir.none)
      ⟨2, 1⟩ 1 Dir.up := by
    constructor
    · exact ⟨[Dir.up], hpath, rfl, rfl⟩
    · intro p d' hp hl hh
      exact Nat.zero_le _
  exact bfs_tiebreak_order wBfsGrid ⟨2, 2⟩ ⟨2, 1⟩ Dir.none false
    (by decide) 1 Dir.up hdist hmin

/-- Counterexample to C2 as stated (over unrestricted paths): in the
open 5×5 room, from (1,2) to (2,1) while moving down, the two shortest
unrestricted paths are `[up, right]` and `[right, up]` (no single step
reaches the target), `up` precedes `right` in the expansion order — yet
the search returns `right`, because `up` is the reverse of the current
direction and the edge up out of the origin is excluded from the
search.  (`GPath` with forbidden reverse `Dir.none` places no
restriction: a `none` step is never an edge.) -/
theorem bfs_tiebreak_counterexample :
    GPath wBfsGrid false ⟨1, 2⟩ Dir.none ⟨1, 2⟩ [Dir.up, Dir.right]
      ⟨2, 1⟩ ∧
    GPath wBfsGrid false ⟨1, 2⟩ Dir.none ⟨1, 2⟩ [Dir.right, Dir.up]
      ⟨2, 1⟩ ∧
    (∀ p, GPath wBfsGrid false ⟨1, 2⟩ Dir.none ⟨1, 2⟩ p ⟨2, 1⟩ →
      2 ≤ p.length) ∧
    ordD Dir.up < ordD Dir.right ∧
    bfsNextDir wBfsGrid ⟨1, 2⟩ ⟨2, 1⟩ Dir.down false = Dir.right ∧
    Dir.right ≠ Dir.up := by
  refine ⟨?_, ?_, ?_, by decide, by decide, by decide⟩
  · exact @GPath.cons wBfsGrid false ⟨1, 2⟩ Dir.none ⟨1, 2⟩ Dir.up
      ⟨1, 1⟩ [Dir.right] ⟨2, 1⟩
      ⟨by decide, by decide, by decide, by decide⟩ (by decide)
      (@GPath.cons wBfsGrid false ⟨1, 2⟩ Dir.none ⟨1, 1⟩ Dir.right
        ⟨2, 1⟩ [] ⟨2, 1⟩ ⟨by decide, by decide, by decide, by decide⟩
        (by decide) (GPath.nil _))
  · exact @GPath.cons wBfsGrid false ⟨1, 2⟩ Dir.none ⟨1, 2⟩ Dir.right
      ⟨2, 2⟩ [Dir.up] ⟨2, 1⟩
      ⟨by decide, by decide, by decide, by decide⟩ (by decide)
      (@GPath.cons wBfsGrid false ⟨1, 2⟩ Dir.none ⟨2, 2⟩ Dir.up
        ⟨2, 1⟩ [] ⟨2, 1⟩ ⟨by decide, by decide, by decide, by decide⟩
        (by decide) (GPath.nil _))
  · intro p hp
    rcases p with _ | ⟨d1, p2⟩
    · exfalso
      cases hp
    · rcases p2 with _ | ⟨d2, p3⟩
      · exfalso
        cases hp with
        | cons he hrev hp' =>
          cases hp'
          obtain ⟨hn, hs, -, -⟩ := he
          cases d1
          case up => exact absurd hs (by decide)
          case down => exact absurd hs (by decide)
          case left => exact absurd hs (by decide)
          case right => exact absurd hs (by decide)
          case none => exact hn rfl
      · simp only [List.length_cons]
        omega

end Pacmoon
